import Mathlib

/-!
# Verification of the gold SHF_MERGE section-merging engine

Shallow embedding of the section merging and deduplication engine declared in
`gold/merge.h` (classes `Output_merge_base`, `Output_merge_data`,
`Output_merge_string<Char_type>`).  The header only declares the interfaces;
the member-function bodies live in `merge.cc` / `stringpool.cc`, which are not
part of the excerpt, so the operational behaviour of those members is modelled
from the specification text and marked as such in the doc comments.

Bytes are modelled as `Nat`, buffers as `List Nat`, the offset map as an
association list, and fallible operations return `Option` / a `Bool` success
flag mirroring the C++ `bool` returns.
-/

namespace gold

abbrev Byte := Nat

/-- Read `n` bytes of `l` starting at byte offset `off`. -/
def readAt (l : List Byte) (off n : Nat) : List Byte :=
  (l.drop off).take n

/-- Fuel-driven worker for `chunksOf`; the fuel is an upper bound on the list
length so the recursion is structural. -/
def chunksOfAux (e : Nat) : Nat → List Byte → List (List Byte)
  | 0, _ => []
  | _ + 1, [] => []
  | fuel + 1, a :: l => (a :: l).take e :: chunksOfAux e fuel ((a :: l).drop e)

/-- Split a byte list into consecutive chunks of `e` bytes (the final chunk is
short when `e` does not divide the length). -/
def chunksOf (e : Nat) (l : List Byte) : List (List Byte) :=
  chunksOfAux e l.length l

/-- One step of first-seen deduplication: keep the accumulator if the chunk is
already present, otherwise append it. -/
def dedupStep (acc : List (List Byte)) (c : List Byte) : List (List Byte) :=
  if c ∈ acc then acc else acc ++ [c]

/-- First-seen-order deduplication of a list of chunks: one copy of every
distinct element, in the order of first appearance. -/
def dedupFirst (l : List (List Byte)) : List (List Byte) :=
  l.foldl dedupStep []

/-! ## `Output_merge_base`: the offset map (`Merge_key`, `Merge_map`) -/

/-- `Merge_key` from `merge.h`: the identity of an input location, made of the
input object (modelled by a numeric identity), the section index, and the byte
offset inside that input section. -/
structure Merge_key where
  object : Nat
  shndx : Nat
  offset : Nat
deriving DecidableEq, Repr

/-- `Merge_map` from `merge.h`: a mapping from input locations to output
offsets.  The `std::map` is modelled as an association list; lookups return
the first binding of a key, so re-recording a key never changes the map's
observable behaviour (matching the spec's "a key is inserted at most once"
invariant). -/
abbrev Merge_map := List (Merge_key × Nat)

/-- Modelled from the spec: `Output_merge_base::add_mapping` (body in the
missing `merge.cc`) records an input-location → output-offset binding. -/
def add_mapping (m : Merge_map) (object shndx offset output_offset : Nat) :
    Merge_map :=
  m ++ [(⟨object, shndx, offset⟩, output_offset)]

/-- Look up the output offset recorded for a key (first binding wins). -/
def lookupKey (m : Merge_map) (k : Merge_key) : Option Nat :=
  (m.find? (fun p => decide (p.1 = k))).map Prod.snd

/-- Modelled from the spec: `Output_merge_base::do_output_address` (body in
the missing `merge.cc`): on a recorded triple it returns the section base
address plus the stored output offset, on a miss it fails (`none`, the C++
`false` return). -/
def do_output_address (m : Merge_map) (object shndx offset : Nat)
    (output_section_address : Nat) : Option Nat :=
  (lookupKey m ⟨object, shndx, offset⟩).map
    (fun v => output_section_address + v)

/-! ## `Output_merge_data`: fixed-size constant merging -/

/-- State of `Output_merge_data` from `merge.h`: the entry size, the
accumulated data (`p_` / `len_`), the content-addressed hash table of keys
that are offsets into that data (`hashtable_`), and the inherited
`merge_map_`. -/
structure Output_merge_data where
  entsize : Nat
  data : List Byte
  hashtable : List Nat
  merge_map : Merge_map
deriving Repr

namespace Output_merge_data

/-- The freshly constructed merger: empty buffer, hash table and map. -/
def init (entsize : Nat) : Output_merge_data :=
  { entsize := entsize, data := [], hashtable := [], merge_map := [] }

/-- `Output_merge_data::constant` from `merge.h`: the `entsize` bytes of
accumulated data that hash-table key `k` denotes. -/
def constant (s : Output_merge_data) (k : Nat) : List Byte :=
  readAt s.data k s.entsize

/-- The content-addressed probe of `hashtable_`: find a stored key whose
referenced bytes (`Merge_data_eq` dereferences the buffer) equal `c`. -/
def find_constant (s : Output_merge_data) (c : List Byte) : Option Nat :=
  s.hashtable.find? (fun k => decide (s.constant k = c))

/-- Modelled from the spec: `Output_merge_data::add_constant` plus the probe
in the missing `merge.cc`: reuse the offset of an equal entry if the hash
table holds one, otherwise append the entry to the accumulated data and insert
its offset as a new hash-table key.  Returns the new state and the output
offset assigned to the entry. -/
def add_constant (s : Output_merge_data) (c : List Byte) :
    Output_merge_data × Nat :=
  match s.find_constant c with
  | some k => (s, k)
  | none =>
      ({ s with data := s.data ++ c,
                hashtable := s.hashtable ++ [s.data.length] }, s.data.length)

/-- Modelled from the spec: the per-slot loop of
`Output_merge_data::do_add_input_section`: each `entsize`-byte slot is
deduplicated through the hash table and its input location is recorded in the
merge map, whether deduplicated or newly appended. -/
def addSlots (object shndx : Nat) :
    List (List Byte) → Nat → Output_merge_data → Output_merge_data
  | [], _, s => s
  | c :: rest, ioff, s =>
      let p := s.add_constant c
      let s2 := { p.1 with
        merge_map := add_mapping p.1.merge_map object shndx ioff p.2 }
      addSlots object shndx rest (ioff + s.entsize) s2

/-- Modelled from the spec: `Output_merge_data::do_add_input_section` (body in
the missing `merge.cc`): reject the section (returning `false` and leaving the
state untouched) when its size is not a multiple of `entsize`, otherwise
process every slot. -/
def do_add_input_section (s : Output_merge_data) (object shndx : Nat)
    (bytes : List Byte) : Bool × Output_merge_data :=
  if bytes.length % s.entsize = 0 then
    (true, addSlots object shndx (chunksOf s.entsize bytes) 0 s)
  else
    (false, s)

/-- Modelled from the spec: `Output_merge_data::do_set_address` fixes the
final data size, which is the length of the accumulated data. -/
def do_set_address (s : Output_merge_data) : Nat :=
  s.data.length

/-- Modelled from the spec: `Output_merge_data::do_write` emits the
accumulated deduplicated data verbatim. -/
def do_write (s : Output_merge_data) : List Byte :=
  s.data

end Output_merge_data

/-- One input section presented to a merger: the owning object's identity,
the section index, and the raw section bytes. -/
structure InputSection where
  object : Nat
  shndx : Nat
  bytes : List Byte
deriving DecidableEq, Repr

/-- Continue processing input sections from an arbitrary merger state; a
rejected (malformed) section leaves the state unchanged, matching the
caller's fallback policy. -/
def runDataFrom (s : Output_merge_data) (secs : List InputSection) :
    Output_merge_data :=
  secs.foldl
    (fun s sec => (s.do_add_input_section sec.object sec.shndx sec.bytes).2) s

/-- Process a list of input sections through one `Output_merge_data` merger,
in order, starting from the freshly constructed merger. -/
def runData (entsize : Nat) (secs : List InputSection) : Output_merge_data :=
  runDataFrom (Output_merge_data.init entsize) secs

/-- The invariant of the constant merger's internal state: a positive entry
size, an accumulated buffer whose length is a multiple of the entry size, a
hash table whose keys are exactly the entry-aligned offsets of the buffer,
and pairwise-distinct buffer entries. -/
def DInv (s : Output_merge_data) : Prop :=
  0 < s.entsize ∧
  s.entsize ∣ s.data.length ∧
  (∀ k, k ∈ s.hashtable ↔
    s.entsize ∣ k ∧ k + s.entsize ≤ s.data.length) ∧
  (chunksOf s.entsize s.data).Nodup

/-- The merger state after one slot of `Output_merge_data.addSlots`:
deduplicate the slot through `add_constant` and record its input location
(definitionally the intermediate state of `addSlots`; named so proofs can
refer to it). -/
def slotState (s : Output_merge_data) (object shndx ioff : Nat)
    (c : List Byte) : Output_merge_data :=
  { (s.add_constant c).1 with
    merge_map := add_mapping (s.add_constant c).1.merge_map object shndx
      ioff (s.add_constant c).2 }

/-- The sequence of `entsize`-sized slots contributed by the sections a
constant merger accepts (malformed sections contribute nothing). -/
def goodSlots (entsize : Nat) (secs : List InputSection) : List (List Byte) :=
  secs.flatMap
    (fun sec =>
      if sec.bytes.length % entsize = 0 then chunksOf entsize sec.bytes
      else [])

/-! ## `Output_merge_string<Char_type>`: string merging with suffix sharing -/

/-- Lexicographic `≤` on byte lists, used (on reversed strings) to order the
string pool so that every string sorts after the strings it is a suffix of. -/
def lexLe : List Nat → List Nat → Bool
  | [], _ => true
  | _ :: _, [] => false
  | a :: as, b :: bs => if a < b then true else if b < a then false else lexLe as bs

/-- Sorting relation for pool finalization: `a` comes before `b` when the
reverse of `a` is lexicographically at least the reverse of `b`, so longer
strings precede their suffixes. -/
def suffixOrder (a b : List Byte) : Prop :=
  lexLe b.reverse a.reverse = true

instance : DecidableRel suffixOrder := by
  intro a b
  unfold suffixOrder
  infer_instance

/-- Sort the unique strings of the pool so suffixes follow their carriers. -/
def sortStrings (l : List (List Byte)) : List (List Byte) :=
  l.insertionSort suffixOrder

/-- Modelled from the spec: the offset-assignment pass of the missing
`Stringpool_template::set_string_offsets`: walk the sorted unique strings,
keeping the list of strings given fresh storage, the assigned offsets, and
the most recently stored string (`carrier`) with its offset.  A string that
is a suffix of the carrier reuses the carrier's storage at the matching
position; any other string is appended as fresh storage. -/
def set_string_offsets :
    List (List Byte) → List (List Byte) → List (List Byte × Nat) →
      List Byte → Nat → List (List Byte) × List (List Byte × Nat)
  | [], stored, offs, _, _ => (stored, offs)
  | s :: rest, stored, offs, carrier, coff =>
      if s <:+ carrier then
        set_string_offsets rest stored
          (offs ++ [(s, coff + (carrier.length - s.length))]) carrier coff
      else
        set_string_offsets rest (stored ++ [s])
          (offs ++ [(s, stored.flatten.length)]) s stored.flatten.length

/-- Modelled from the spec: finalize a string pool: sort the unique strings
suffix-aware and assign storage and offsets in one pass.  Returns the list of
strings that received fresh storage (the emitted storage is their
concatenation) and the offset assigned to every unique string. -/
def finalizePool (pool : List (List Byte)) :
    List (List Byte) × List (List Byte × Nat) :=
  set_string_offsets (sortStrings pool) [] [] [] 0

/-- Look up the finalized offset assigned to a unique string. -/
def lookupString (offs : List (List Byte × Nat)) (s : List Byte) : Option Nat :=
  (offs.find? (fun p => decide (p.1 = s))).map Prod.snd

/-- Modelled from the spec: interning into the string pool during collection:
one canonical copy of every distinct string, in first-seen order. -/
def intern (pool : List (List Byte)) (s : List Byte) : List (List Byte) :=
  if s ∈ pool then pool else pool ++ [s]

/-- Worker for `splitStrings`: accumulate code units of the current string
until a terminator (a `W`-wide zero unit) is consumed; the terminator is part
of the emitted string.  A trailing unterminated run is emitted as-is so the
byte accounting stays exact. -/
def splitStringsAux (W : Nat) : List Byte → List (List Byte) → List (List Byte)
  | cur, [] => if cur = [] then [] else [cur]
  | cur, u :: us =>
      if u = List.replicate W 0 then (cur ++ u) :: splitStringsAux W [] us
      else splitStringsAux W (cur ++ u) us

/-- Modelled from the spec: split a string section's bytes into its
null-terminated strings of `W`-byte code units, terminators included. -/
def splitStrings (W : Nat) (bytes : List Byte) : List (List Byte) :=
  splitStringsAux W [] (chunksOf W bytes)

/-- `Merged_string` from `merge.h`: an input location together with the
interned string found there (the C++ stores a pointer into the pool; content
identity models pointer identity after interning). -/
structure Merged_string where
  object : Nat
  shndx : Nat
  offset : Nat
  string : List Byte
deriving Repr

/-- Modelled from the spec: after pool finalization, record every
`Merged_string`'s input location in the merge map at its string's resolved
offset (a string the pool cannot resolve is skipped; with a well-formed pool
this never happens). -/
def record_merged (offs : List (List Byte × Nat)) :
    List Merged_string → Merge_map → Merge_map
  | [], m => m
  | ms :: ml, m =>
      record_merged offs ml
        (match lookupString offs ms.string with
          | some v => add_mapping m ms.object ms.shndx ms.offset v
          | none => m)

/-- State of `Output_merge_string<Char_type>` from `merge.h`: the code-unit
width (`sizeof(Char_type)`), the string pool of unique strings seen so far,
and the recorded `Merged_string` entries. -/
structure Output_merge_string where
  width : Nat
  stringpool : List (List Byte)
  merged_strings : List Merged_string
deriving Repr

namespace Output_merge_string

/-- The `Output_merge_string` constructor from `merge.h`: its
`gold_assert(addralign <= sizeof(Char_type))` is modelled as returning `none`
(assertion failure) when the alignment exceeds the code-unit width. -/
def construct (width addralign : Nat) : Option Output_merge_string :=
  if addralign ≤ width then
    some { width := width, stringpool := [], merged_strings := [] }
  else
    none

/-- Modelled from the spec: the per-string loop of
`Output_merge_string::do_add_input_section`: intern each string and record a
`Merged_string` carrying its input byte offset. -/
def addStrings (object shndx : Nat) :
    List (List Byte) → Nat → Output_merge_string → Output_merge_string
  | [], _, s => s
  | str :: rest, o, s =>
      addStrings object shndx rest (o + str.length)
        { s with stringpool := intern s.stringpool str,
                 merged_strings :=
                   s.merged_strings ++ [⟨object, shndx, o, str⟩] }

/-- Modelled from the spec: `Output_merge_string::do_add_input_section`:
reject the section when its size is not a multiple of the code-unit width,
otherwise intern every string and record its location. -/
def do_add_input_section (s : Output_merge_string) (object shndx : Nat)
    (bytes : List Byte) : Bool × Output_merge_string :=
  if bytes.length % s.width = 0 then
    (true, addStrings object shndx (splitStrings s.width bytes) 0 s)
  else
    (false, s)

/-- Modelled from the spec: `Output_merge_string::do_set_address`: finalize
the pool (deciding storage and offsets) and record every `Merged_string`'s
location in the merge map at its string's final offset.  Returns the emitted
storage bytes and the populated merge map. -/
def finalize (s : Output_merge_string) : List Byte × Merge_map :=
  ((finalizePool s.stringpool).1.flatten,
    record_merged (finalizePool s.stringpool).2 s.merged_strings [])

/-- Modelled from the spec: `Output_merge_string::do_write` emits the
finalized unique-string storage. -/
def do_write (s : Output_merge_string) : List Byte :=
  (s.finalize).1

end Output_merge_string

/-- The string-merger state after recording one string of
`Output_merge_string.addStrings` (definitionally the intermediate state of
`addStrings`; named so proofs can refer to it). -/
def strState (t : Output_merge_string) (object shndx o : Nat)
    (str : List Byte) : Output_merge_string :=
  { t with stringpool := intern t.stringpool str,
           merged_strings := t.merged_strings ++ [⟨object, shndx, o, str⟩] }

/-- The merge key a recorded `Merged_string` will be filed under. -/
def msKey (ms : Merged_string) : Merge_key :=
  ⟨ms.object, ms.shndx, ms.offset⟩

/-- The byte offset at which the `j`-th string of a split section starts:
the total length of the strings before it (the split is byte-exact). -/
def strOffset (strs : List (List Byte)) (j : Nat) : Nat :=
  ((strs.take j).flatten).length

/-- Continue processing input sections from an arbitrary string-merger
state. -/
def runStringFrom (t : Output_merge_string) (secs : List InputSection) :
    Output_merge_string :=
  secs.foldl
    (fun s sec => (s.do_add_input_section sec.object sec.shndx sec.bytes).2) t

/-- Process a list of input sections through one `Output_merge_string`
merger, in order, starting from the freshly constructed merger. -/
def runString (width : Nat) (secs : List InputSection) : Output_merge_string :=
  runStringFrom { width := width, stringpool := [], merged_strings := [] }
    secs

/-- The (object, section index) identity of an input section. -/
def secId (sec : InputSection) : Nat × Nat :=
  (sec.object, sec.shndx)

/-- The (object, section index) identity a merge key refers to. -/
def keyId (k : Merge_key) : Nat × Nat :=
  (k.object, k.shndx)

/-- The sum of the byte sizes of all presented input sections. -/
def totalInputSize (secs : List InputSection) : Nat :=
  (secs.map (fun sec => sec.bytes.length)).sum

/-- The full collect → finalize → emit pipeline for a constant merger. -/
def dataPipeline (entsize : Nat) (secs : List InputSection) : List Byte :=
  (runData entsize secs).do_write

/-- The full collect → finalize → emit pipeline for a string merger. -/
def stringPipeline (width : Nat) (secs : List InputSection) : List Byte :=
  (runString width secs).do_write

/-! ## Lemmas about the offset map -/

theorem lookupKey_eq_some_of_mem {m : Merge_map}
    (hm : (m.map Prod.fst).Nodup) {k : Merge_key} {v : Nat}
    (h : (k, v) ∈ m) : lookupKey m k = some v := by
  induction m with
  | nil => cases h
  | cons p t ih =>
    rcases List.mem_cons.mp h with h1 | h1
    · subst h1
      simp [lookupKey, List.find?]
    · have hk : p.1 ≠ k := by
        intro he
        have : k ∈ t.map Prod.fst := List.mem_map.mpr ⟨(k, v), h1, rfl⟩
        exact (List.nodup_cons.mp hm).1 (he ▸ this)
      have ht : (t.map Prod.fst).Nodup := (List.nodup_cons.mp hm).2
      simpa [lookupKey, List.find?, hk] using ih ht h1

theorem lookupKey_eq_none {m : Merge_map} {k : Merge_key} :
    lookupKey m k = none ↔ ∀ v, (k, v) ∉ m := by
  simp only [lookupKey, Option.map_eq_none', List.find?_eq_none,
    decide_eq_true_eq]
  constructor
  · intro h v hv
    exact h _ hv rfl
  · intro h p hp he
    exact h p.2 (by simpa [← he] using hp)

/-! ## Lemmas about chunks, reads and first-seen deduplication -/

theorem chunksOfAux_eq (e : Nat) (he : 0 < e) :
    ∀ fuel (l : List Byte), l.length ≤ fuel →
      chunksOfAux e fuel l = chunksOfAux e l.length l := by
  intro fuel
  induction fuel using Nat.strong_induction_on with
  | _ fuel ih =>
      intro l hl
      cases fuel with
      | zero =>
          have hnil : l = [] := List.length_eq_zero.mp (Nat.le_zero.mp hl)
          subst hnil
          rfl
      | succ n =>
          cases l with
          | nil => rfl
          | cons a t =>
              show _ :: chunksOfAux e n ((a :: t).drop e)
                  = _ :: chunksOfAux e t.length ((a :: t).drop e)
              have hlc : (a :: t).length = t.length + 1 := rfl
              have hd : ((a :: t).drop e).length ≤ t.length := by
                simp only [List.length_drop, hlc]
                omega
              have hn : ((a :: t).drop e).length ≤ n := by
                rw [hlc] at hl
                omega
              rw [ih n (Nat.lt_succ_self n) _ hn,
                ih t.length (by rw [hlc] at hl; omega) _ hd]

theorem chunksOf_cons (e : Nat) (he : 0 < e) (l : List Byte) (hl : l ≠ []) :
    chunksOf e l = l.take e :: chunksOf e (l.drop e) := by
  match l, hl with
  | a :: t, _ =>
      show chunksOfAux e (t.length + 1) (a :: t) = _
      simp only [chunksOfAux]
      congr 1
      refine chunksOfAux_eq e he t.length _ ?_
      have hlc : (a :: t).length = t.length + 1 := rfl
      simp only [List.length_drop, hlc]
      omega

theorem le_length_of_dvd (e : Nat) {l : List Byte}
    (hdvd : e ∣ l.length) (hl : l ≠ []) : e ≤ l.length :=
  Nat.le_of_dvd (List.length_pos.mpr hl) hdvd

theorem dvd_length_drop (e : Nat) (l : List Byte) (hdvd : e ∣ l.length) :
    e ∣ (l.drop e).length := by
  simp only [List.length_drop]
  exact Nat.dvd_sub' hdvd (Nat.dvd_refl e)

/-- Structure-following induction for proofs about `chunksOf e`. -/
theorem chunksOf_induction (e : Nat) (he : 0 < e) (P : List Byte → Prop)
    (h0 : P []) (hstep : ∀ l, l ≠ [] → P (l.drop e) → P l) :
    ∀ l, P l := by
  intro l
  generalize hn : l.length = n
  induction n using Nat.strong_induction_on generalizing l with
  | _ n ih =>
      match l, hn with
      | [], _ => exact h0
      | a :: t, hn =>
          refine hstep _ (List.cons_ne_nil a t) ?_
          refine ih ((a :: t).drop e).length ?_ _ rfl
          have hlc : (a :: t).length = t.length + 1 := rfl
          simp only [List.length_drop] at hn ⊢
          omega

theorem flatten_chunksOf (e : Nat) (he : 0 < e) (l : List Byte) :
    (chunksOf e l).flatten = l := by
  induction l using chunksOf_induction e he with
  | h0 => rfl
  | hstep l hl ih =>
      rw [chunksOf_cons e he l hl]
      simp [ih, List.take_append_drop]

theorem chunksOf_eq_nil_iff (e : Nat) (he : 0 < e) (l : List Byte) :
    chunksOf e l = [] ↔ l = [] := by
  constructor
  · intro h
    have := flatten_chunksOf e he l
    rw [h] at this
    exact this.symm
  · intro h
    subst h
    rfl

theorem length_mem_chunksOf (e : Nat) (he : 0 < e) (l : List Byte) :
    e ∣ l.length → ∀ c ∈ chunksOf e l, c.length = e := by
  induction l using chunksOf_induction e he with
  | h0 => intro _ c hc; cases hc
  | hstep l hl ih =>
      intro hdvd c hc
      have hle : e ≤ l.length := le_length_of_dvd e hdvd hl
      rw [chunksOf_cons e he l hl] at hc
      rcases List.mem_cons.mp hc with h | h
      · subst h
        simp only [List.length_take]
        omega
      · exact ih (dvd_length_drop e l hdvd) c h

theorem chunksOf_append (e : Nat) (he : 0 < e) (a b : List Byte) :
    e ∣ a.length → chunksOf e (a ++ b) = chunksOf e a ++ chunksOf e b := by
  induction a using chunksOf_induction e he with
  | h0 =>
      intro _
      have h : chunksOf e ([] : List Byte) = [] := rfl
      simp [h]
  | hstep a ha ih =>
      intro hdvd
      have hle : e ≤ a.length := le_length_of_dvd e hdvd ha
      have hab : a ++ b ≠ [] := by simp [ha]
      rw [chunksOf_cons e he (a ++ b) hab, chunksOf_cons e he a ha]
      rw [List.take_append_of_le_length hle,
        List.drop_append_of_le_length hle]
      rw [ih (dvd_length_drop e a hdvd)]
      simp

theorem chunksOf_singleton (e : Nat) (he : 0 < e) (c : List Byte)
    (hc : c.length = e) : chunksOf e c = [c] := by
  have hne : c ≠ [] := by
    intro h
    subst h
    simp at hc
    omega
  rw [chunksOf_cons e he c hne]
  have h1 : c.take e = c := List.take_of_length_le (le_of_eq hc)
  have h2 : c.drop e = [] := List.drop_eq_nil_of_le (le_of_eq hc)
  rw [h1, h2]
  rfl

theorem readAt_append (l d : List Byte) (k n : Nat) (h : k + n ≤ l.length) :
    readAt (l ++ d) k n = readAt l k n := by
  unfold readAt
  rw [List.drop_append_of_le_length (by omega)]
  rw [List.take_append_of_le_length (by simp [List.length_drop]; omega)]

theorem readAt_zero (l : List Byte) (n : Nat) : readAt l 0 n = l.take n := rfl

theorem readAt_drop (l : List Byte) (e k n : Nat) :
    readAt (l.drop e) k n = readAt l (e + k) n := by
  unfold readAt
  rw [List.drop_drop]

theorem mem_chunksOf_iff (e : Nat) (he : 0 < e) (l : List Byte)
    (c : List Byte) :
    e ∣ l.length →
      (c ∈ chunksOf e l ↔
        ∃ k, e ∣ k ∧ k + e ≤ l.length ∧ readAt l k e = c) := by
  induction l using chunksOf_induction e he with
  | h0 =>
      intro _
      have h : chunksOf e ([] : List Byte) = [] := rfl
      simp only [h, List.not_mem_nil, false_iff, not_exists, not_and,
        List.length_nil]
      intro k hk hke
      omega
  | hstep l hl ih =>
      intro hdvd
      have hle : e ≤ l.length := le_length_of_dvd e hdvd hl
      have hdvd' : e ∣ (l.drop e).length := dvd_length_drop e l hdvd
      rw [chunksOf_cons e he l hl, List.mem_cons, ih hdvd']
      constructor
      · rintro (h | ⟨k, hk1, hk2, hk3⟩)
        · exact ⟨0, Nat.dvd_zero e, by omega, h ▸ readAt_zero l e⟩
        · refine ⟨e + k, Nat.dvd_add (Nat.dvd_refl e) hk1, ?_, ?_⟩
          · simp only [List.length_drop] at hk2
            omega
          · rw [← readAt_drop, hk3]
      · rintro ⟨k, hk1, hk2, hk3⟩
        rcases Nat.eq_zero_or_pos k with h | h
        · subst h
          exact Or.inl (by rw [← hk3, readAt_zero])
        · have hek : e ≤ k := Nat.le_of_dvd h hk1
          refine Or.inr ⟨k - e, Nat.dvd_sub' hk1 (Nat.dvd_refl e), ?_, ?_⟩
          · simp only [List.length_drop]
            omega
          · rw [readAt_drop]
            rw [Nat.add_sub_cancel' hek]
            exact hk3

theorem chunksOf_length (e : Nat) (he : 0 < e) (l : List Byte) :
    e ∣ l.length → (chunksOf e l).length = l.length / e := by
  induction l using chunksOf_induction e he with
  | h0 =>
      intro _
      have h : chunksOf e ([] : List Byte) = [] := rfl
      simp [h]
  | hstep l hl ih =>
      intro hdvd
      rw [chunksOf_cons e he l hl, List.length_cons,
        ih (dvd_length_drop e l hdvd), List.length_drop]
      obtain ⟨k, hk⟩ := hdvd
      have hkpos : 0 < k := by
        rcases Nat.eq_zero_or_pos k with h | h
        · subst h
          simp at hk
          exact absurd hk hl
        · exact h
      have h1 : l.length - e = e * (k - 1) := by
        cases k with
        | zero => omega
        | succ n =>
            rw [hk, Nat.mul_succ]
            simp [Nat.mul_succ]
      rw [h1, hk, Nat.mul_div_cancel_left _ he, Nat.mul_div_cancel_left _ he]
      omega

theorem chunksOf_getD (e : Nat) (he : 0 < e) (l : List Byte) :
    e ∣ l.length → ∀ j, j * e + e ≤ l.length →
      (chunksOf e l).getD j [] = readAt l (j * e) e := by
  induction l using chunksOf_induction e he with
  | h0 =>
      intro _ j hj
      simp only [List.length_nil] at hj
      omega
  | hstep l hl ih =>
      intro hdvd j hj
      rw [chunksOf_cons e he l hl]
      cases j with
      | zero =>
          rw [List.getD_cons_zero]
          rw [Nat.zero_mul, readAt_zero]
      | succ n =>
          rw [List.getD_cons_succ]
          have harith : (n + 1) * e = n * e + e := Nat.succ_mul n e
          have hj' : n * e + e ≤ (l.drop e).length := by
            rw [List.length_drop]
            omega
          rw [ih (dvd_length_drop e l hdvd) n hj', readAt_drop]
          congr 1
          omega

theorem mem_dedupFoldl (x : List Byte) :
    ∀ (l acc : List (List Byte)),
      x ∈ l.foldl dedupStep acc ↔ x ∈ acc ∨ x ∈ l := by
  intro l
  induction l with
  | nil => simp
  | cons c t ih =>
      intro acc
      rw [List.foldl_cons, ih]
      unfold dedupStep
      by_cases hc : c ∈ acc
      · rw [if_pos hc]
        constructor
        · rintro (h | h)
          · exact Or.inl h
          · exact Or.inr (List.mem_cons_of_mem c h)
        · rintro (h | h)
          · exact Or.inl h
          · rcases List.mem_cons.mp h with rfl | h
            · exact Or.inl hc
            · exact Or.inr h
      · rw [if_neg hc]
        simp only [List.mem_append, List.mem_singleton, List.mem_cons]
        tauto

theorem dedupFoldl_length_le :
    ∀ (l acc : List (List Byte)),
      (l.foldl dedupStep acc).length ≤ acc.length + l.length := by
  intro l
  induction l with
  | nil => simp
  | cons c t ih =>
      intro acc
      rw [List.foldl_cons]
      refine le_trans (ih (dedupStep acc c)) ?_
      unfold dedupStep
      by_cases hc : c ∈ acc
      · rw [if_pos hc]
        simp only [List.length_cons]
        omega
      · rw [if_neg hc]
        simp only [List.length_append, List.length_singleton,
          List.length_cons, List.length_nil]
        omega

theorem dedupFoldl_length_eq_iff :
    ∀ (l acc : List (List Byte)),
      (l.foldl dedupStep acc).length = acc.length + l.length ↔
        l.Nodup ∧ ∀ x ∈ l, x ∉ acc := by
  intro l
  induction l with
  | nil => simp
  | cons c t ih =>
      intro acc
      rw [List.foldl_cons]
      by_cases hc : c ∈ acc
      · have hstep : dedupStep acc c = acc := if_pos hc
        rw [hstep]
        constructor
        · intro h
          exfalso
          have := dedupFoldl_length_le t acc
          simp only [List.length_cons] at h
          omega
        · rintro ⟨-, hni⟩
          exact absurd hc (hni c (List.mem_cons_self c t))
      · have hstep : dedupStep acc c = acc ++ [c] := if_neg hc
        have harr : acc.length + (c :: t).length
            = (acc ++ [c]).length + t.length := by
          simp only [List.length_append, List.length_singleton,
            List.length_cons, List.length_nil]
          omega
        rw [hstep, harr, ih]
        constructor
        · rintro ⟨hnd, hni⟩
          refine ⟨List.nodup_cons.mpr ⟨?_, hnd⟩, ?_⟩
          · intro hct
            have := hni c hct
            simp at this
          · intro x hx
            rcases List.mem_cons.mp hx with rfl | hx
            · exact hc
            · intro hxa
              exact (hni x hx) (List.mem_append_left _ hxa)
        · rintro ⟨hnd, hni⟩
          have hcnd := List.nodup_cons.mp hnd
          refine ⟨hcnd.2, ?_⟩
          intro x hx hxa
          rcases List.mem_append.mp hxa with h | h
          · exact hni x (List.mem_cons_of_mem c hx) h
          · rw [List.mem_singleton.mp h] at hx
            exact hcnd.1 hx

theorem flatten_length_uniform (e : Nat) :
    ∀ L : List (List Byte), (∀ c ∈ L, c.length = e) →
      L.flatten.length = L.length * e := by
  intro L
  induction L with
  | nil => simp
  | cons c t ih =>
      intro h
      rw [List.flatten_cons, List.length_append, List.length_cons,
        ih (fun x hx => h x (List.mem_cons_of_mem c hx)),
        h c (List.mem_cons_self c t)]
      ring

theorem aligned_readAt_inj (e : Nat) (he : 0 < e) (l : List Byte) :
    e ∣ l.length → (chunksOf e l).Nodup →
    ∀ k₁ k₂, e ∣ k₁ → k₁ + e ≤ l.length → e ∣ k₂ → k₂ + e ≤ l.length →
      readAt l k₁ e = readAt l k₂ e → k₁ = k₂ := by
  induction l using chunksOf_induction e he with
  | h0 =>
      intro _ _ k₁ k₂ _ h₁ _ _ _
      simp at h₁
      omega
  | hstep l hl ih =>
      intro hdvd hnd k₁ k₂ hd₁ hr₁ hd₂ hr₂ heq
      have hdvd' : e ∣ (l.drop e).length := dvd_length_drop e l hdvd
      rw [chunksOf_cons e he l hl] at hnd
      have hnotmem := (List.nodup_cons.mp hnd).1
      have hnd' := (List.nodup_cons.mp hnd).2
      rcases Nat.eq_zero_or_pos k₁ with h₁ | h₁ <;>
        rcases Nat.eq_zero_or_pos k₂ with h₂ | h₂
      · omega
      · exfalso
        subst h₁
        have hek : e ≤ k₂ := Nat.le_of_dvd h₂ hd₂
        have hmem : readAt l k₂ e ∈ chunksOf e (l.drop e) := by
          rw [mem_chunksOf_iff e he _ _ hdvd']
          refine ⟨k₂ - e, Nat.dvd_sub' hd₂ (Nat.dvd_refl e), ?_, ?_⟩
          · simp only [List.length_drop]; omega
          · rw [readAt_drop, Nat.add_sub_cancel' hek]
        rw [← heq, readAt_zero] at hmem
        exact hnotmem hmem
      · exfalso
        subst h₂
        have hek : e ≤ k₁ := Nat.le_of_dvd h₁ hd₁
        have hmem : readAt l k₁ e ∈ chunksOf e (l.drop e) := by
          rw [mem_chunksOf_iff e he _ _ hdvd']
          refine ⟨k₁ - e, Nat.dvd_sub' hd₁ (Nat.dvd_refl e), ?_, ?_⟩
          · simp only [List.length_drop]; omega
          · rw [readAt_drop, Nat.add_sub_cancel' hek]
        rw [heq, readAt_zero] at hmem
        exact hnotmem hmem
      · have he₁ : e ≤ k₁ := Nat.le_of_dvd h₁ hd₁
        have he₂ : e ≤ k₂ := Nat.le_of_dvd h₂ hd₂
        have := ih hdvd' hnd' (k₁ - e) (k₂ - e)
          (Nat.dvd_sub' hd₁ (Nat.dvd_refl e))
          (by simp only [List.length_drop]; omega)
          (Nat.dvd_sub' hd₂ (Nat.dvd_refl e))
          (by simp only [List.length_drop]; omega)
          (by rw [readAt_drop, readAt_drop, Nat.add_sub_cancel' he₁,
                Nat.add_sub_cancel' he₂]; exact heq)
        omega

/-! ## The constant merger's invariant and its preservation -/

theorem DInv_init (e : Nat) (he : 0 < e) :
    DInv (Output_merge_data.init e) := by
  refine ⟨he, Dvd.intro 0 rfl, ?_, ?_⟩
  · intro k
    constructor
    · intro h
      cases h
    · rintro ⟨-, h⟩
      simp only [Output_merge_data.init, List.length_nil] at h
      omega
  · exact List.nodup_nil

theorem add_constant_spec (s : Output_merge_data) (c : List Byte)
    (hInv : DInv s) (hc : c.length = s.entsize) :
    DInv (s.add_constant c).1 ∧
    (s.add_constant c).1.entsize = s.entsize ∧
    (s.add_constant c).1.merge_map = s.merge_map ∧
    (∃ d, (s.add_constant c).1.data = s.data ++ d) ∧
    s.entsize ∣ (s.add_constant c).2 ∧
    (s.add_constant c).2 + s.entsize ≤ (s.add_constant c).1.data.length ∧
    readAt (s.add_constant c).1.data (s.add_constant c).2 s.entsize = c ∧
    chunksOf s.entsize (s.add_constant c).1.data
      = dedupStep (chunksOf s.entsize s.data) c := by
  obtain ⟨he, hdvd, hht, hnd⟩ := hInv
  unfold Output_merge_data.add_constant
  cases hfind : s.find_constant c with
  | some k =>
      have hfind' : s.hashtable.find? (fun k => decide (s.constant k = c))
          = some k := hfind
      have hpk := List.find?_some hfind'
      have hkc : s.constant k = c := by
        simpa only [decide_eq_true_eq] using hpk
      have hkmem : k ∈ s.hashtable := List.mem_of_find?_eq_some hfind'
      obtain ⟨hka, hkr⟩ := (hht k).mp hkmem
      have hcin : c ∈ chunksOf s.entsize s.data :=
        (mem_chunksOf_iff s.entsize he s.data c hdvd).mpr ⟨k, hka, hkr, hkc⟩
      refine ⟨⟨he, hdvd, hht, hnd⟩, rfl, rfl, ⟨[], (List.append_nil _).symm⟩,
        hka, hkr, hkc, ?_⟩
      unfold dedupStep
      rw [if_pos hcin]
  | none =>
      have hfind' : s.hashtable.find? (fun k => decide (s.constant k = c))
          = none := hfind
      have hcnot : c ∉ chunksOf s.entsize s.data := by
        intro hcin
        obtain ⟨k, hka, hkr, hkc⟩ :=
          (mem_chunksOf_iff s.entsize he s.data c hdvd).mp hcin
        have hkmem : k ∈ s.hashtable := (hht k).mpr ⟨hka, hkr⟩
        have := List.find?_eq_none.mp hfind' k hkmem
        simp only [decide_eq_true_eq] at this
        exact this hkc
      have hlen : (s.data ++ c).length = s.data.length + s.entsize := by
        rw [List.length_append, hc]
      have hchunks : chunksOf s.entsize (s.data ++ c)
          = chunksOf s.entsize s.data ++ [c] := by
        rw [chunksOf_append s.entsize he s.data c hdvd,
          chunksOf_singleton s.entsize he c hc]
      have hread : readAt (s.data ++ c) s.data.length s.entsize = c := by
        unfold readAt
        rw [List.drop_left, List.take_of_length_le (le_of_eq hc)]
      refine ⟨⟨he, ?_, ?_, ?_⟩, rfl, rfl, ⟨c, rfl⟩, hdvd, ?_, hread, ?_⟩
      · rw [hlen]
        exact Nat.dvd_add hdvd (Nat.dvd_refl _)
      · intro k
        simp only [List.mem_append, List.mem_singleton, hht, hlen]
        constructor
        · rintro (⟨hka, hkr⟩ | rfl)
          · exact ⟨hka, by omega⟩
          · exact ⟨hdvd, le_refl _⟩
        · rintro ⟨hka, hkr⟩
          by_cases hk : k + s.entsize ≤ s.data.length
          · exact Or.inl ⟨hka, hk⟩
          · right
            have h1 : k ≤ s.data.length := by omega
            have h2 : s.entsize ∣ s.data.length - k := Nat.dvd_sub' hdvd hka
            by_contra hne
            have h3 : s.data.length - k ≠ 0 := by omega
            have h4 : s.entsize ≤ s.data.length - k :=
              Nat.le_of_dvd (Nat.pos_of_ne_zero h3) h2
            omega
      · rw [hchunks, List.nodup_append]
        exact ⟨hnd, List.nodup_singleton c,
          fun x hx hx' => hcnot ((List.mem_singleton.mp hx') ▸ hx)⟩
      · rw [hlen]
      · rw [hchunks]
        unfold dedupStep
        rw [if_neg hcnot]

theorem DInv_map_irrel (s : Output_merge_data) (m : Merge_map)
    (h : DInv s) : DInv { s with merge_map := m } := h

theorem addSlots_cons (object shndx : Nat) (c : List Byte)
    (rest : List (List Byte)) (ioff : Nat) (s : Output_merge_data) :
    Output_merge_data.addSlots object shndx (c :: rest) ioff s
      = Output_merge_data.addSlots object shndx rest (ioff + s.entsize)
          (slotState s object shndx ioff c) := rfl

theorem slotState_entsize (s : Output_merge_data) (object shndx ioff : Nat)
    (c : List Byte) :
    (slotState s object shndx ioff c).entsize
      = (s.add_constant c).1.entsize := rfl

theorem slotState_data (s : Output_merge_data) (object shndx ioff : Nat)
    (c : List Byte) :
    (slotState s object shndx ioff c).data = (s.add_constant c).1.data := rfl

theorem slotState_merge_map (s : Output_merge_data)
    (object shndx ioff : Nat) (c : List Byte) :
    (slotState s object shndx ioff c).merge_map
      = (s.add_constant c).1.merge_map
        ++ [(⟨object, shndx, ioff⟩, (s.add_constant c).2)] := rfl

theorem addSlots_spec (object shndx : Nat) (cs : List (List Byte)) :
    ∀ (ioff : Nat) (s : Output_merge_data), DInv s →
      (∀ c ∈ cs, c.length = s.entsize) →
      DInv (Output_merge_data.addSlots object shndx cs ioff s) ∧
      (Output_merge_data.addSlots object shndx cs ioff s).entsize
        = s.entsize ∧
      (∃ d, (Output_merge_data.addSlots object shndx cs ioff s).data
        = s.data ++ d) ∧
      chunksOf s.entsize
          (Output_merge_data.addSlots object shndx cs ioff s).data
        = cs.foldl dedupStep (chunksOf s.entsize s.data) ∧
      (∃ tail, (Output_merge_data.addSlots object shndx cs ioff s).merge_map
          = s.merge_map ++ tail ∧
        tail.map Prod.fst
          = (List.range cs.length).map
              (fun j => ⟨object, shndx, ioff + j * s.entsize⟩)) ∧
      (∀ j, j < cs.length → ∃ v,
        (Merge_key.mk object shndx (ioff + j * s.entsize), v)
            ∈ (Output_merge_data.addSlots object shndx cs ioff s).merge_map ∧
        s.entsize ∣ v ∧
        v + s.entsize
          ≤ (Output_merge_data.addSlots object shndx cs ioff s).data.length ∧
        readAt (Output_merge_data.addSlots object shndx cs ioff s).data v
            s.entsize
          = cs.getD j []) := by
  induction cs with
  | nil =>
      intro ioff s hInv hcs
      refine ⟨hInv, rfl, ⟨[], (List.append_nil _).symm⟩, rfl,
        ⟨[], (List.append_nil _).symm, rfl⟩, ?_⟩
      intro j hj
      exact absurd hj (Nat.not_lt_zero j)
  | cons c rest ih =>
      intro ioff s hInv hcs
      obtain ⟨hInvP, hePes, hmapP, ⟨d0, hdataP⟩, hvA, hvR, hvC, hchP⟩ :=
        add_constant_spec s c hInv (hcs c (List.mem_cons_self c rest))
      rw [addSlots_cons]
      have hInv2 : DInv (slotState s object shndx ioff c) :=
        DInv_map_irrel _ _ hInvP
      have he2 : (slotState s object shndx ioff c).entsize = s.entsize := by
        rw [slotState_entsize, hePes]
      have hcs2 : ∀ x ∈ rest, x.length
          = (slotState s object shndx ioff c).entsize := by
        intro x hx
        rw [he2]
        exact hcs x (List.mem_cons_of_mem c hx)
      obtain ⟨ihInv, ihE, ⟨d1, ihData⟩, ihChunks, ⟨tail1, ihMap, ihKeys⟩,
        ihSlots⟩ := ih (ioff + s.entsize) _ hInv2 hcs2
      rw [he2] at ihE ihChunks ihKeys ihSlots
      have hmap2 : (slotState s object shndx ioff c).merge_map
          = s.merge_map ++ [(⟨object, shndx, ioff⟩, (s.add_constant c).2)] :=
        by
        rw [slotState_merge_map, hmapP]
      rw [slotState_data] at ihChunks
      rw [hmap2] at ihMap
      refine ⟨ihInv, ihE, ?_, ?_, ?_, ?_⟩
      · refine ⟨d0 ++ d1, ?_⟩
        rw [ihData, slotState_data, hdataP, List.append_assoc]
      · rw [List.foldl_cons, ihChunks, hchP]
      · refine ⟨(⟨object, shndx, ioff⟩, (s.add_constant c).2) :: tail1, ?_, ?_⟩
        · rw [ihMap, List.append_assoc, List.singleton_append]
        · rw [List.map_cons, ihKeys, List.length_cons,
            List.range_succ_eq_map, List.map_cons, List.map_map]
          congr 1
          · show Merge_key.mk object shndx ioff
              = Merge_key.mk object shndx (ioff + 0 * s.entsize)
            congr 1
            omega
          · refine List.map_congr_left ?_
            intro j hj
            show Merge_key.mk object shndx (ioff + s.entsize + j * s.entsize)
              = Merge_key.mk object shndx (ioff + (j + 1) * s.entsize)
            congr 1
            ring
      · intro j hj
        match j, hj with
        | 0, hj =>
            refine ⟨(s.add_constant c).2, ?_, hvA, ?_, ?_⟩
            · rw [ihMap]
              have : (Merge_key.mk object shndx (ioff + 0 * s.entsize),
                  (s.add_constant c).2)
                  = (Merge_key.mk object shndx ioff, (s.add_constant c).2) :=
                by
                congr 2
                omega
              rw [this]
              exact List.mem_append_left _
                (List.mem_append_right _ (List.mem_singleton.mpr rfl))
            · rw [ihData, slotState_data, List.length_append]
              omega
            · rw [ihData, slotState_data, readAt_append _ _ _ _ hvR]
              exact hvC
        | j' + 1, hj =>
            have hj' : j' < rest.length := by
              rw [List.length_cons] at hj
              omega
            obtain ⟨v, hmem, hdv, hrange, hcontent⟩ := ihSlots j' hj'
            refine ⟨v, ?_, hdv, hrange, ?_⟩
            · have harith : ioff + s.entsize + j' * s.entsize
                  = ioff + (j' + 1) * s.entsize := by ring
              rw [← harith]
              exact hmem
            · rw [hcontent]
              rfl

theorem runDataFrom_nil (s : Output_merge_data) : runDataFrom s [] = s := rfl

theorem runDataFrom_cons (s : Output_merge_data) (sec : InputSection)
    (rest : List InputSection) :
    runDataFrom s (sec :: rest)
      = runDataFrom
          (s.do_add_input_section sec.object sec.shndx sec.bytes).2 rest :=
  rfl

theorem runDataFrom_spec (secs : List InputSection) :
    ∀ (s : Output_merge_data), DInv s →
      (∀ p ∈ s.merge_map, keyId p.1 ∉ secs.map secId) →
      (secs.map secId).Nodup →
      (s.merge_map.map Prod.fst).Nodup →
      DInv (runDataFrom s secs) ∧
      (runDataFrom s secs).entsize = s.entsize ∧
      (∃ d, (runDataFrom s secs).data = s.data ++ d) ∧
      chunksOf s.entsize (runDataFrom s secs).data
        = (goodSlots s.entsize secs).foldl dedupStep
            (chunksOf s.entsize s.data) ∧
      (∃ tail, (runDataFrom s secs).merge_map = s.merge_map ++ tail ∧
        ∀ p ∈ tail, keyId p.1 ∈ secs.map secId) ∧
      ((runDataFrom s secs).merge_map.map Prod.fst).Nodup ∧
      (∀ sec ∈ secs, s.entsize ∣ sec.bytes.length →
        ∀ j, j * s.entsize + s.entsize ≤ sec.bytes.length →
        ∃ v,
          (Merge_key.mk sec.object sec.shndx (j * s.entsize), v)
              ∈ (runDataFrom s secs).merge_map ∧
          s.entsize ∣ v ∧
          v + s.entsize ≤ (runDataFrom s secs).data.length ∧
          readAt (runDataFrom s secs).data v s.entsize
            = readAt sec.bytes (j * s.entsize) s.entsize) := by
  induction secs with
  | nil =>
      intro s hInv _ _ hknd
      refine ⟨hInv, rfl, ⟨[], (List.append_nil _).symm⟩, rfl,
        ⟨[], (List.append_nil _).symm, ?_⟩, hknd, ?_⟩
      · intro p hp
        cases hp
      · intro sec hsec
        cases hsec
  | cons sec rest ih =>
      intro s hInv hfresh hids hknd
      have he : 0 < s.entsize := hInv.1
      have hids' := List.nodup_cons.mp
        (by simpa only [List.map_cons] using hids)
      rw [runDataFrom_cons]
      by_cases hdv : sec.bytes.length % s.entsize = 0
      · -- the section is well-formed and all its slots are merged
        have hstep : (s.do_add_input_section sec.object sec.shndx
            sec.bytes).2
            = Output_merge_data.addSlots sec.object sec.shndx
                (chunksOf s.entsize sec.bytes) 0 s := by
          unfold Output_merge_data.do_add_input_section
          rw [if_pos hdv]
        rw [hstep]
        have hdvd : s.entsize ∣ sec.bytes.length :=
          Nat.dvd_of_mod_eq_zero hdv
        obtain ⟨aInv, aE, ⟨d0, aData⟩, aChunks, ⟨tail0, aMap, aKeys⟩,
          aSlots⟩ :=
          addSlots_spec sec.object sec.shndx
            (chunksOf s.entsize sec.bytes) 0 s hInv
            (length_mem_chunksOf s.entsize he sec.bytes hdvd)
        have htail0id : ∀ p ∈ tail0, keyId p.1 = secId sec := by
          intro p hp
          have hx : p.1 ∈ tail0.map Prod.fst := List.mem_map_of_mem _ hp
          rw [aKeys] at hx
          obtain ⟨j, _, hje⟩ := List.mem_map.mp hx
          rw [← hje]
          rfl
        have hfresh1 : ∀ p ∈ (Output_merge_data.addSlots sec.object
            sec.shndx (chunksOf s.entsize sec.bytes) 0 s).merge_map,
            keyId p.1 ∉ rest.map secId := by
          intro p hp
          rw [aMap] at hp
          rcases List.mem_append.mp hp with h | h
          · intro hmem
            exact hfresh p h
              (by simpa only [List.map_cons] using
                List.mem_cons_of_mem (secId sec) hmem)
          · rw [htail0id p h]
            exact hids'.1
        have hknd1 : ((Output_merge_data.addSlots sec.object sec.shndx
            (chunksOf s.entsize sec.bytes) 0 s).merge_map.map
              Prod.fst).Nodup := by
          rw [aMap, List.map_append, List.nodup_append]
          refine ⟨hknd, ?_, ?_⟩
          · rw [aKeys]
            refine List.Nodup.map ?_ (List.nodup_range _)
            intro j1 j2 hjj
            have := (Merge_key.mk.injEq _ _ _ _ _ _).mp hjj
            have h2 : j1 * s.entsize = j2 * s.entsize := by omega
            exact Nat.eq_of_mul_eq_mul_right he h2
          · intro x hx hx'
            rw [aKeys] at hx'
            obtain ⟨j, _, hje⟩ := List.mem_map.mp hx'
            obtain ⟨p, hp, hpx⟩ := List.mem_map.mp hx
            have hni := hfresh p hp
            rw [hpx, ← hje] at hni
            refine hni ?_
            show secId sec ∈ _
            simp only [List.map_cons]
            exact List.mem_cons_self _ _
        obtain ⟨bInv, bE, ⟨d1, bData⟩, bChunks, ⟨tail1, bMap, bIds⟩, bKnd,
          bSlots⟩ := ih _ aInv hfresh1 hids'.2 hknd1
        rw [aE] at bE bChunks bSlots
        refine ⟨bInv, bE, ⟨d0 ++ d1, ?_⟩, ?_, ⟨tail0 ++ tail1, ?_, ?_⟩,
          bKnd, ?_⟩
        · rw [bData, aData, List.append_assoc]
        · have hgs : goodSlots s.entsize (sec :: rest)
              = chunksOf s.entsize sec.bytes ++ goodSlots s.entsize rest :=
            by
            simp only [goodSlots, List.flatMap_cons, if_pos hdv]
          rw [hgs, List.foldl_append, ← aChunks]
          exact bChunks
        · rw [bMap, aMap, List.append_assoc]
        · intro p hp
          rcases List.mem_append.mp hp with h | h
          · rw [List.map_cons, htail0id p h]
            exact List.mem_cons_self _ _
          · rw [List.map_cons]
            exact List.mem_cons_of_mem _ (bIds p h)
        · intro sec' hsec' hdvd' j hj
          rcases List.mem_cons.mp hsec' with rfl | hmem
          · have hjlt : j < (chunksOf s.entsize sec'.bytes).length := by
              rw [chunksOf_length s.entsize he sec'.bytes hdvd]
              have hmul : (j + 1) * s.entsize ≤ sec'.bytes.length := by
                rw [Nat.succ_mul]
                omega
              have := (Nat.le_div_iff_mul_le he).mpr hmul
              omega
            obtain ⟨v, vMem, vA, vR, vC⟩ := aSlots j hjlt
            simp only [Nat.zero_add] at vMem
            refine ⟨v, ?_, vA, ?_, ?_⟩
            · rw [bMap]
              exact List.mem_append_left _ vMem
            · rw [bData, List.length_append]
              omega
            · rw [bData, readAt_append _ _ _ _ vR, vC]
              exact chunksOf_getD s.entsize he sec'.bytes hdvd j hj
          · exact bSlots sec' hmem hdvd' j hj
      · -- the malformed section is rejected and contributes nothing
        have hstep : (s.do_add_input_section sec.object sec.shndx
            sec.bytes).2 = s := by
          unfold Output_merge_data.do_add_input_section
          rw [if_neg hdv]
        rw [hstep]
        have hfresh' : ∀ p ∈ s.merge_map, keyId p.1 ∉ rest.map secId := by
          intro p hp hmem
          exact hfresh p hp
            (by simpa only [List.map_cons] using
              List.mem_cons_of_mem (secId sec) hmem)
        obtain ⟨bInv, bE, bDataEx, bChunks, ⟨tail1, bMap, bIds⟩, bKnd,
          bSlots⟩ := ih s hInv hfresh' hids'.2 hknd
        have hgs : goodSlots s.entsize (sec :: rest)
            = goodSlots s.entsize rest := by
          simp only [goodSlots, List.flatMap_cons, if_neg hdv,
            List.nil_append]
        refine ⟨bInv, bE, bDataEx, ?_, ⟨tail1, bMap, ?_⟩, bKnd, ?_⟩
        · rw [hgs]
          exact bChunks
        · intro p hp
          rw [List.map_cons]
          exact List.mem_cons_of_mem _ (bIds p hp)
        · intro sec' hsec' hdvd' j hj
          rcases List.mem_cons.mp hsec' with rfl | hmem
          · exact absurd (Nat.mod_eq_zero_of_dvd hdvd') hdv
          · exact bSlots sec' hmem hdvd' j hj

theorem runDataFrom_data (secs : List InputSection) :
    ∀ s : Output_merge_data, DInv s →
      DInv (runDataFrom s secs) ∧
      (runDataFrom s secs).entsize = s.entsize ∧
      chunksOf s.entsize (runDataFrom s secs).data
        = (goodSlots s.entsize secs).foldl dedupStep
            (chunksOf s.entsize s.data) := by
  induction secs with
  | nil =>
      intro s hInv
      exact ⟨hInv, rfl, rfl⟩
  | cons sec rest ih =>
      intro s hInv
      have he : 0 < s.entsize := hInv.1
      rw [runDataFrom_cons]
      by_cases hdv : sec.bytes.length % s.entsize = 0
      · have hstep : (s.do_add_input_section sec.object sec.shndx
            sec.bytes).2
            = Output_merge_data.addSlots sec.object sec.shndx
                (chunksOf s.entsize sec.bytes) 0 s := by
          unfold Output_merge_data.do_add_input_section
          rw [if_pos hdv]
        rw [hstep]
        have hdvd : s.entsize ∣ sec.bytes.length :=
          Nat.dvd_of_mod_eq_zero hdv
        obtain ⟨aInv, aE, -, aChunks, -, -⟩ :=
          addSlots_spec sec.object sec.shndx
            (chunksOf s.entsize sec.bytes) 0 s hInv
            (length_mem_chunksOf s.entsize he sec.bytes hdvd)
        obtain ⟨bInv, bE, bChunks⟩ := ih _ aInv
        rw [aE] at bE bChunks
        refine ⟨bInv, bE, ?_⟩
        have hgs : goodSlots s.entsize (sec :: rest)
            = chunksOf s.entsize sec.bytes ++ goodSlots s.entsize rest := by
          simp only [goodSlots, List.flatMap_cons, if_pos hdv]
        rw [hgs, List.foldl_append, ← aChunks]
        exact bChunks
      · have hstep : (s.do_add_input_section sec.object sec.shndx
            sec.bytes).2 = s := by
          unfold Output_merge_data.do_add_input_section
          rw [if_neg hdv]
        rw [hstep]
        obtain ⟨bInv, bE, bChunks⟩ := ih s hInv
        have hgs : goodSlots s.entsize (sec :: rest)
            = goodSlots s.entsize rest := by
          simp only [goodSlots, List.flatMap_cons, if_neg hdv,
            List.nil_append]
        rw [hgs]
        exact ⟨bInv, bE, bChunks⟩

theorem goodSlots_length (e : Nat) (he : 0 < e) (secs : List InputSection) :
    ∀ c ∈ goodSlots e secs, c.length = e := by
  intro c hc
  unfold goodSlots at hc
  obtain ⟨sec, hsec, hcin⟩ := List.mem_flatMap.mp hc
  by_cases hdv : sec.bytes.length % e = 0
  · rw [if_pos hdv] at hcin
    exact length_mem_chunksOf e he sec.bytes
      (Nat.dvd_of_mod_eq_zero hdv) c hcin
  · rw [if_neg hdv] at hcin
    cases hcin

theorem totalInputSize_goodSlots (e : Nat) (he : 0 < e) :
    ∀ secs : List InputSection, (∀ sec ∈ secs, e ∣ sec.bytes.length) →
      totalInputSize secs = (goodSlots e secs).length * e := by
  intro secs
  induction secs with
  | nil =>
      intro _
      simp [totalInputSize, goodSlots]
  | cons sec rest ih =>
      intro hall
      have hd := hall sec (List.mem_cons_self sec rest)
      have hdv : sec.bytes.length % e = 0 := Nat.mod_eq_zero_of_dvd hd
      have hgs : goodSlots e (sec :: rest)
          = chunksOf e sec.bytes ++ goodSlots e rest := by
        simp only [goodSlots, List.flatMap_cons, if_pos hdv]
      have hrest := ih (fun x hx => hall x (List.mem_cons_of_mem _ hx))
      unfold totalInputSize at hrest ⊢
      rw [List.map_cons, List.sum_cons, hgs, List.length_append, hrest,
        Nat.add_mul, chunksOf_length e he _ hd, Nat.div_mul_cancel hd]

/-! ## Lexicographic order on byte lists and the pool's sorting relation -/

theorem lexLe_cons_cons (x y : Nat) (as bs : List Nat) :
    lexLe (x :: as) (y :: bs)
      = if x < y then true else if y < x then false else lexLe as bs := rfl

theorem lexLe_cons_self (x : Nat) (as bs : List Nat) :
    lexLe (x :: as) (x :: bs) = lexLe as bs := by
  rw [lexLe_cons_cons, if_neg (Nat.lt_irrefl x), if_neg (Nat.lt_irrefl x)]

theorem lexLe_cons_lt {x y : Nat} (h : x < y) (as bs : List Nat) :
    lexLe (x :: as) (y :: bs) = true := by
  rw [lexLe_cons_cons, if_pos h]

theorem lexLe_cons_gt {x y : Nat} (h : y < x) (as bs : List Nat) :
    lexLe (x :: as) (y :: bs) = false := by
  rw [lexLe_cons_cons, if_neg (Nat.lt_asymm h), if_pos h]

theorem lexLe_refl : ∀ a : List Nat, lexLe a a = true := by
  intro a
  induction a with
  | nil => rfl
  | cons x as ih =>
      rw [lexLe_cons_self]
      exact ih

theorem lexLe_total : ∀ a b : List Nat, lexLe a b = true ∨ lexLe b a = true
  := by
  intro a
  induction a with
  | nil => intro b; exact Or.inl rfl
  | cons x as ih =>
      intro b
      cases b with
      | nil => exact Or.inr rfl
      | cons y bs =>
          rcases Nat.lt_trichotomy x y with h | h | h
          · exact Or.inl (lexLe_cons_lt h as bs)
          · subst h
            rw [lexLe_cons_self, lexLe_cons_self]
            exact ih bs
          · exact Or.inr (lexLe_cons_lt h bs as)

theorem lexLe_trans : ∀ a b c : List Nat, lexLe a b = true →
    lexLe b c = true → lexLe a c = true := by
  intro a
  induction a with
  | nil => intro b c _ _; rfl
  | cons x as ih =>
      intro b c hab hbc
      cases b with
      | nil => simp [lexLe] at hab
      | cons y bs =>
          cases c with
          | nil => simp [lexLe] at hbc
          | cons z cs =>
              rcases Nat.lt_trichotomy x y with hxy | hxy | hxy
              · rcases Nat.lt_trichotomy y z with hyz | hyz | hyz
                · exact lexLe_cons_lt (Nat.lt_trans hxy hyz) as cs
                · subst hyz
                  exact lexLe_cons_lt hxy as cs
                · rw [lexLe_cons_gt hyz] at hbc
                  cases hbc
              · subst hxy
                rcases Nat.lt_trichotomy x z with hyz | hyz | hyz
                · exact lexLe_cons_lt hyz as cs
                · subst hyz
                  rw [lexLe_cons_self] at hab hbc ⊢
                  exact ih bs cs hab hbc
                · rw [lexLe_cons_gt hyz] at hbc
                  cases hbc
              · rw [lexLe_cons_gt hxy] at hab
                cases hab

theorem lexLe_antisymm : ∀ a b : List Nat, lexLe a b = true →
    lexLe b a = true → a = b := by
  intro a
  induction a with
  | nil =>
      intro b _ hba
      cases b with
      | nil => rfl
      | cons y bs => simp [lexLe] at hba
  | cons x as ih =>
      intro b hab hba
      cases b with
      | nil => simp [lexLe] at hab
      | cons y bs =>
          rcases Nat.lt_trichotomy x y with hxy | hxy | hxy
          · rw [lexLe_cons_gt hxy] at hba
            cases hba
          · subst hxy
            rw [lexLe_cons_self] at hab hba
            rw [ih bs hab hba]
          · rw [lexLe_cons_gt hxy] at hab
            cases hab

theorem lexLe_of_isPre : ∀ a b : List Nat, a <+: b → lexLe a b = true := by
  intro a
  induction a with
  | nil => intro b _; rfl
  | cons x as ih =>
      intro b hpre
      obtain ⟨t, ht⟩ := hpre
      subst ht
      show lexLe (x :: as) (x :: (as ++ t)) = true
      rw [lexLe_cons_self]
      exact ih (as ++ t) ⟨t, rfl⟩

/-- The sandwich property of the lexicographic order: anything between a
list and one of its extensions starts with that list. -/
theorem lexLe_sandwich : ∀ y p x : List Nat, lexLe y p = true →
    lexLe p x = true → y <+: x → y <+: p := by
  intro y
  induction y with
  | nil => intro p _ _ _ _; exact ⟨p, rfl⟩
  | cons a ys ih =>
      intro p x hyp hpx hpre
      obtain ⟨t, ht⟩ := hpre
      subst ht
      cases p with
      | nil => simp [lexLe] at hyp
      | cons b ps =>
          have hx : (a :: ys) ++ t = a :: (ys ++ t) := rfl
          rcases Nat.lt_trichotomy a b with hab | hab | hab
          · rw [hx, lexLe_cons_gt hab] at hpx
            cases hpx
          · subst hab
            rw [lexLe_cons_self] at hyp
            rw [hx, lexLe_cons_self] at hpx
            obtain ⟨u, hu⟩ := ih ps (ys ++ t) hyp hpx ⟨t, rfl⟩
            exact ⟨u, by rw [List.cons_append, hu]⟩
          · rw [lexLe_cons_gt hab] at hyp
            cases hyp

theorem suffix_iff_rev (a b : List Byte) :
    a <:+ b ↔ a.reverse <+: b.reverse :=
  ( List.reverse_prefix).symm

theorem suffixOrder_refl (a : List Byte) : suffixOrder a a :=
  lexLe_refl a.reverse

instance : IsTotal (List Byte) suffixOrder :=
  ⟨fun a b => lexLe_total b.reverse a.reverse⟩

instance : IsTrans (List Byte) suffixOrder :=
  ⟨fun a b c hab hbc => lexLe_trans c.reverse b.reverse a.reverse hbc hab⟩

theorem suffixOrder_antisymm (a b : List Byte) (hab : suffixOrder a b)
    (hba : suffixOrder b a) : a = b := by
  have := lexLe_antisymm b.reverse a.reverse hab hba
  have h2 := congrArg List.reverse this
  simpa using h2.symm

theorem suffixOrder_of_suffix (a b : List Byte) (h : a <:+ b) :
    suffixOrder b a :=
  lexLe_of_isPre a.reverse b.reverse ((suffix_iff_rev a b).mp h)

theorem sortStrings_sorted (l : List (List Byte)) :
    List.Pairwise suffixOrder (sortStrings l) :=
  List.sorted_insertionSort suffixOrder l

theorem sortStrings_perm (l : List (List Byte)) :
    List.Perm (sortStrings l) l :=
  List.perm_insertionSort suffixOrder l

theorem sortStrings_mem (l : List (List Byte)) (x : List Byte) :
    x ∈ sortStrings l ↔ x ∈ l :=
  (sortStrings_perm l).mem_iff

theorem sortStrings_nodup (l : List (List Byte)) (h : l.Nodup) :
    (sortStrings l).Nodup :=
  ((sortStrings_perm l).nodup_iff).mpr h

/-! ## The string pool's offset-assignment pass -/

theorem sso_nil (stored : List (List Byte)) (offs : List (List Byte × Nat))
    (carrier : List Byte) (coff : Nat) :
    set_string_offsets [] stored offs carrier coff = (stored, offs) := rfl

theorem sso_cons (s : List Byte) (rest : List (List Byte))
    (stored : List (List Byte)) (offs : List (List Byte × Nat))
    (carrier : List Byte) (coff : Nat) :
    set_string_offsets (s :: rest) stored offs carrier coff
      = if s <:+ carrier then
          set_string_offsets rest stored
            (offs ++ [(s, coff + (carrier.length - s.length))]) carrier coff
        else
          set_string_offsets rest (stored ++ [s])
            (offs ++ [(s, stored.flatten.length)]) s
            stored.flatten.length := rfl

theorem sso_mono (l : List (List Byte)) :
    ∀ (stored : List (List Byte)) (offs : List (List Byte × Nat))
      (carrier : List Byte) (coff : Nat),
      (∃ offs2,
        (set_string_offsets l stored offs carrier coff).2 = offs ++ offs2 ∧
        offs2.map Prod.fst = l) ∧
      (∃ st,
        (set_string_offsets l stored offs carrier coff).1 = stored ++ st ∧
        ∀ x ∈ st, x ∈ l) := by
  induction l with
  | nil =>
      intro stored offs carrier coff
      rw [sso_nil]
      exact ⟨⟨[], (List.append_nil _).symm, rfl⟩,
        ⟨[], (List.append_nil _).symm, fun x hx => absurd hx
          (List.not_mem_nil x)⟩⟩
  | cons s rest ih =>
      intro stored offs carrier coff
      rw [sso_cons]
      by_cases hs : s <:+ carrier
      · rw [if_pos hs]
        obtain ⟨⟨offs2, ho, hk⟩, ⟨st, hst, hstl⟩⟩ := ih stored
          (offs ++ [(s, coff + (carrier.length - s.length))]) carrier coff
        refine ⟨⟨(s, coff + (carrier.length - s.length)) :: offs2, ?_, ?_⟩,
          ⟨st, hst, ?_⟩⟩
        · rw [ho, List.append_assoc, List.singleton_append]
        · rw [List.map_cons, hk]
        · intro x hx
          exact List.mem_cons_of_mem s (hstl x hx)
      · rw [if_neg hs]
        obtain ⟨⟨offs2, ho, hk⟩, ⟨st, hst, hstl⟩⟩ := ih (stored ++ [s])
          (offs ++ [(s, stored.flatten.length)]) s stored.flatten.length
        refine ⟨⟨(s, stored.flatten.length) :: offs2, ?_, ?_⟩,
          ⟨s :: st, ?_, ?_⟩⟩
        · rw [ho, List.append_assoc, List.singleton_append]
        · rw [List.map_cons, hk]
        · rw [hst, List.append_assoc, List.singleton_append]
        · intro x hx
          rcases List.mem_cons.mp hx with rfl | hx
          · exact List.mem_cons_self x rest
          · exact List.mem_cons_of_mem s (hstl x hx)

theorem readAt_within (F : List Byte) (off : Nat) (c s : List Byte)
    (hr : readAt F off c.length = c) (_hb : off + c.length ≤ F.length)
    (hs : s <:+ c) :
    readAt F (off + (c.length - s.length)) s.length = s := by
  obtain ⟨u, hu⟩ := hs
  have hul : c.length - s.length = u.length := by
    rw [← hu, List.length_append]
    omega
  rw [hul]
  have hfd : F.drop off = c ++ F.drop (off + c.length) := by
    conv_lhs => rw [← List.take_append_drop c.length (F.drop off)]
    unfold readAt at hr
    rw [hr, List.drop_drop]
  unfold readAt
  have h1 : F.drop (off + u.length) = (F.drop off).drop u.length := by
    rw [List.drop_drop]
  rw [h1, hfd, ← hu, List.append_assoc, List.drop_left]
  rw [List.take_append_of_le_length (Nat.le_refl s.length),
    List.take_length]

/-- Correctness of the offset-assignment pass: every assigned offset reads
back the string's own bytes from the final storage, and the assigned keys
are exactly the processed strings in order. -/
theorem sso_correct (l : List (List Byte)) :
    ∀ (stored : List (List Byte)) (offs : List (List Byte × Nat))
      (carrier : List Byte) (coff : Nat),
      coff + carrier.length ≤ stored.flatten.length →
      readAt stored.flatten coff carrier.length = carrier →
      (∀ p ∈ offs,
        p.2 + p.1.length ≤ stored.flatten.length ∧
        readAt stored.flatten p.2 p.1.length = p.1) →
      ∀ p ∈ (set_string_offsets l stored offs carrier coff).2,
        p.2 + p.1.length
          ≤ (set_string_offsets l stored offs carrier coff).1.flatten.length
          ∧
        readAt (set_string_offsets l stored offs carrier coff).1.flatten
          p.2 p.1.length = p.1 := by
  induction l with
  | nil =>
      intro stored offs carrier coff _ _ hoffs
      rw [sso_nil]
      exact hoffs
  | cons s rest ih =>
      intro stored offs carrier coff hcb hcr hoffs
      rw [sso_cons]
      by_cases hs : s <:+ carrier
      · rw [if_pos hs]
        refine ih stored _ carrier coff hcb hcr ?_
        intro p hp
        rcases List.mem_append.mp hp with h | h
        · exact hoffs p h
        · rw [List.mem_singleton.mp h]
          have hsl : s.length ≤ carrier.length := by
            obtain ⟨u, hu⟩ := hs
            rw [← hu, List.length_append]
            omega
          constructor
          · simp only []
            omega
          · exact readAt_within stored.flatten coff carrier s hcr hcb hs
      · rw [if_neg hs]
        have hflat : (stored ++ [s]).flatten = stored.flatten ++ s := by
          rw [List.flatten_append]
          simp
        refine ih (stored ++ [s]) _ s stored.flatten.length ?_ ?_ ?_
        · rw [hflat, List.length_append]
        · rw [hflat]
          unfold readAt
          rw [List.drop_left, List.take_length]
        · intro p hp
          rcases List.mem_append.mp hp with h | h
          · obtain ⟨hb, hr⟩ := hoffs p h
            rw [hflat, List.length_append]
            exact ⟨by omega, by rw [readAt_append _ _ _ _ hb]; exact hr⟩
          · rw [List.mem_singleton.mp h]
            rw [hflat, List.length_append]
            refine ⟨le_refl _, ?_⟩
            unfold readAt
            rw [List.drop_left, List.take_length]

/-- Suffix sharing in the offset-assignment pass: in a sorted, duplicate-free
pool of nonempty strings, a string that is a proper suffix of another pool
string is never given fresh storage; it is redirected into the storage of the
stored string that carries it, at the offset where the matching suffix
begins. -/
theorem sso_reach (l : List (List Byte)) :
    ∀ (proc stored : List (List Byte)) (offs : List (List Byte × Nat))
      (carrier : List Byte) (coff : Nat) (S1 S2 : List Byte),
      List.Pairwise suffixOrder (proc ++ l) →
      (proc ++ l).Nodup →
      (∀ y ∈ l, y ≠ []) →
      (proc ≠ [] → ∃ p, p ∈ proc ∧ p <:+ carrier ∧
        ∀ q ∈ proc, suffixOrder q p) →
      (proc ≠ [] → carrier ∈ stored ∧ (carrier, coff) ∈ offs) →
      (proc = [] → carrier = []) →
      (∀ y ∈ stored, y ∈ proc) →
      (S1 ∈ proc ∨ S1 ∈ l) → S2 ∈ l → S2 <:+ S1 → S2 ≠ S1 →
      S2 ∉ (set_string_offsets l stored offs carrier coff).1 ∧
      ∃ t vt v, t ∈ (set_string_offsets l stored offs carrier coff).1 ∧
        S2 <:+ t ∧ S2 ≠ t ∧
        (t, vt) ∈ (set_string_offsets l stored offs carrier coff).2 ∧
        (S2, v) ∈ (set_string_offsets l stored offs carrier coff).2 ∧
        v = vt + (t.length - S2.length) := by
  induction l with
  | nil =>
      intro proc stored offs carrier coff S1 S2 _ _ _ _ _ _ _ _ hS2 _ _
      cases hS2
  | cons x rest ih =>
      intro proc stored offs carrier coff S1 S2 hsort hnd hne hplink hcar
        hinit hstored hS1 hS2 hsuf hS2ne
      have hassoc : (proc ++ [x]) ++ rest = proc ++ x :: rest := by
        rw [List.append_assoc, List.singleton_append]
      rw [sso_cons]
      by_cases hxS2 : x = S2
      · subst hxS2
        have hS1p : S1 ∈ proc := by
          rcases hS1 with h | h
          · exact h
          · rcases List.mem_cons.mp h with h1 | h1
            · exact absurd h1.symm hS2ne
            · have hp2 := (List.pairwise_append.mp hsort).2.1
              have h2 : suffixOrder x S1 := (List.pairwise_cons.mp hp2).1 S1 h1
              have h3 : suffixOrder S1 x := suffixOrder_of_suffix x S1 hsuf
              exact absurd (suffixOrder_antisymm x S1 h2 h3) hS2ne
        have hprocne : proc ≠ [] := by
          intro h
          rw [h] at hS1p
          cases hS1p
        obtain ⟨p, hpmem, hpcar, hpmax⟩ := hplink hprocne
        obtain ⟨hcarst, hcaroffs⟩ := hcar hprocne
        have hsplit := List.pairwise_append.mp hsort
        have hpx : suffixOrder p x :=
          hsplit.2.2 p hpmem x (List.mem_cons_self x rest)
        have hS1p' : suffixOrder S1 p := hpmax S1 hS1p
        have hxrev : x.reverse <+: S1.reverse := (suffix_iff_rev x S1).mp hsuf
        have hxp : x.reverse <+: p.reverse :=
          lexLe_sandwich x.reverse p.reverse S1.reverse hpx hS1p' hxrev
        have hxcar : x <:+ carrier :=
          ((suffix_iff_rev x p).mpr hxp).trans hpcar
        rw [if_pos hxcar]
        obtain ⟨⟨offs2, ho, -⟩, ⟨st, hst, hstl⟩⟩ := sso_mono rest stored
          (offs ++ [(x, coff + (carrier.length - x.length))]) carrier coff
        have hxproc : x ∉ proc := by
          intro hmem
          have hdisj := (List.nodup_append.mp hnd).2.2
          exact hdisj hmem (List.mem_cons_self x rest)
        have hxrest : x ∉ rest :=
          (List.nodup_cons.mp (List.nodup_append.mp hnd).2.1).1
        have hxne_car : x ≠ carrier := by
          intro h
          exact hxproc (h ▸ hstored carrier hcarst)
        constructor
        · rw [hst]
          intro hmem
          rcases List.mem_append.mp hmem with h | h
          · exact hxproc (hstored x h)
          · exact hxrest (hstl x h)
        · refine ⟨carrier, coff, coff + (carrier.length - x.length), ?_,
            hxcar, hxne_car, ?_, ?_, rfl⟩
          · rw [hst]
            exact List.mem_append_left _ hcarst
          · rw [ho]
            exact List.mem_append_left _ (List.mem_append_left _ hcaroffs)
          · rw [ho]
            exact List.mem_append_left _
              (List.mem_append_right _ (List.mem_singleton.mpr rfl))
      · have hS2rest : S2 ∈ rest := by
          rcases List.mem_cons.mp hS2 with h | h
          · exact absurd h.symm hxS2
          · exact h
        have hsort' : List.Pairwise suffixOrder ((proc ++ [x]) ++ rest) := by
          rw [hassoc]
          exact hsort
        have hnd' : ((proc ++ [x]) ++ rest).Nodup := by
          rw [hassoc]
          exact hnd
        have hne' : ∀ y ∈ rest, y ≠ [] :=
          fun y hy => hne y (List.mem_cons_of_mem x hy)
        have hqx : ∀ q ∈ proc ++ [x], suffixOrder q x := by
          intro q hq
          rcases List.mem_append.mp hq with h | h
          · exact (List.pairwise_append.mp hsort).2.2 q h x
              (List.mem_cons_self x rest)
          · rw [List.mem_singleton.mp h]
            exact suffixOrder_refl x
        have hS1' : S1 ∈ proc ++ [x] ∨ S1 ∈ rest := by
          rcases hS1 with h | h
          · exact Or.inl (List.mem_append_left _ h)
          · rcases List.mem_cons.mp h with h1 | h1
            · exact Or.inl (h1 ▸ List.mem_append_right _
                (List.mem_singleton.mpr rfl))
            · exact Or.inr h1
        by_cases hshare : x <:+ carrier
        · rw [if_pos hshare]
          have hprocne : proc ≠ [] := by
            intro h
            have hc := hinit h
            rw [hc] at hshare
            exact hne x (List.mem_cons_self x rest)
              (List.suffix_nil.mp hshare)
          obtain ⟨hcarst, hcaroffs⟩ := hcar hprocne
          refine ih (proc ++ [x]) stored
            (offs ++ [(x, coff + (carrier.length - x.length))]) carrier coff
            S1 S2 hsort' hnd' hne' ?_ ?_ ?_ ?_ hS1' hS2rest hsuf hS2ne
          · intro _
            exact ⟨x, List.mem_append_right _ (List.mem_singleton.mpr rfl),
              hshare, hqx⟩
          · intro _
            exact ⟨hcarst, List.mem_append_left _ hcaroffs⟩
          · intro h
            exact absurd h (by simp)
          · intro y hy
            exact List.mem_append_left _ (hstored y hy)
        · rw [if_neg hshare]
          refine ih (proc ++ [x]) (stored ++ [x])
            (offs ++ [(x, stored.flatten.length)]) x stored.flatten.length
            S1 S2 hsort' hnd' hne' ?_ ?_ ?_ ?_ hS1' hS2rest hsuf hS2ne
          · intro _
            exact ⟨x, List.mem_append_right _ (List.mem_singleton.mpr rfl),
              List.suffix_rfl, hqx⟩
          · intro _
            exact ⟨List.mem_append_right _ (List.mem_singleton.mpr rfl),
              List.mem_append_right _ (List.mem_singleton.mpr rfl)⟩
          · intro h
            exact absurd h (by simp)
          · intro y hy
            rcases List.mem_append.mp hy with h | h
            · exact List.mem_append_left _ (hstored y h)
            · exact List.mem_append_right _ h

/-! ## Collection-phase lemmas for the string merger -/

theorem mem_intern (pool : List (List Byte)) (s x : List Byte) :
    x ∈ intern pool s ↔ x ∈ pool ∨ x = s := by
  unfold intern
  by_cases h : s ∈ pool
  · rw [if_pos h]
    constructor
    · exact Or.inl
    · rintro (hx | rfl)
      · exact hx
      · exact h
  · rw [if_neg h]
    simp

theorem intern_nodup (pool : List (List Byte)) (s : List Byte)
    (h : pool.Nodup) : (intern pool s).Nodup := by
  unfold intern
  by_cases hs : s ∈ pool
  · rw [if_pos hs]
    exact h
  · rw [if_neg hs]
    rw [List.nodup_append]
    exact ⟨h, List.nodup_singleton s,
      fun x hx hx' => hs ((List.mem_singleton.mp hx') ▸ hx)⟩

theorem chunksOf_ne_nil (e : Nat) (he : 0 < e) (l : List Byte) :
    ∀ c ∈ chunksOf e l, c ≠ [] := by
  induction l using chunksOf_induction e he with
  | h0 => intro c hc; cases hc
  | hstep l hl ih =>
      intro c hc
      rw [chunksOf_cons e he l hl] at hc
      rcases List.mem_cons.mp hc with rfl | h
      · intro h
        have := congrArg List.length h
        rw [List.length_take] at this
        simp only [List.length_nil] at this
        have hlp : 0 < l.length := List.length_pos.mpr hl
        omega
      · exact ih c h

theorem splitStringsAux_nonempty (W : Nat) (hW : 0 < W) :
    ∀ (us : List (List Byte)) (cur : List Byte),
      ∀ s ∈ splitStringsAux W cur us, s ≠ [] := by
  intro us
  induction us with
  | nil =>
      intro cur s hs
      unfold splitStringsAux at hs
      by_cases hc : cur = []
      · rw [if_pos hc] at hs
        cases hs
      · rw [if_neg hc] at hs
        rw [List.mem_singleton.mp hs]
        exact hc
  | cons u us' ih =>
      intro cur s hs
      unfold splitStringsAux at hs
      by_cases hu : u = List.replicate W 0
      · rw [if_pos hu] at hs
        rcases List.mem_cons.mp hs with rfl | h
        · intro hnil
          have := congrArg List.length hnil
          rw [List.length_append, hu, List.length_replicate] at this
          simp only [List.length_nil] at this
          omega
        · exact ih [] s h
      · rw [if_neg hu] at hs
        exact ih (cur ++ u) s hs

theorem splitStrings_nonempty (W : Nat) (hW : 0 < W) (bytes : List Byte) :
    ∀ s ∈ splitStrings W bytes, s ≠ [] :=
  splitStringsAux_nonempty W hW (chunksOf W bytes) []

theorem strOffset_zero (l : List (List Byte)) : strOffset l 0 = 0 := rfl

theorem strOffset_succ (s : List Byte) (rest : List (List Byte)) (j : Nat) :
    strOffset (s :: rest) (j + 1) = s.length + strOffset rest j := by
  unfold strOffset
  rw [List.take_succ_cons, List.flatten_cons, List.length_append]

theorem strOffset_strict (strs : List (List Byte))
    (hne : ∀ x ∈ strs, x ≠ []) :
    ∀ i j, i < j → j ≤ strs.length →
      strOffset strs i < strOffset strs j := by
  induction strs with
  | nil =>
      intro i j hij hj
      simp only [List.length_nil] at hj
      omega
  | cons s rest ih =>
      intro i j hij hj
      cases j with
      | zero => omega
      | succ j' =>
          rw [strOffset_succ]
          have hs : 0 < s.length :=
            List.length_pos.mpr (hne s (List.mem_cons_self s rest))
          cases i with
          | zero =>
              rw [strOffset_zero]
              omega
          | succ i' =>
              rw [strOffset_succ]
              have hj' : j' ≤ rest.length := by
                simp only [List.length_cons] at hj
                omega
              have := ih (fun x hx => hne x (List.mem_cons_of_mem s hx))
                i' j' (by omega) hj'
              omega

theorem addStrings_cons (object shndx : Nat) (str : List Byte)
    (rest : List (List Byte)) (o : Nat) (t : Output_merge_string) :
    Output_merge_string.addStrings object shndx (str :: rest) o t
      = Output_merge_string.addStrings object shndx rest (o + str.length)
          (strState t object shndx o str) := rfl

theorem strState_width (t : Output_merge_string) (object shndx o : Nat)
    (str : List Byte) :
    (strState t object shndx o str).width = t.width := rfl

theorem strState_pool (t : Output_merge_string) (object shndx o : Nat)
    (str : List Byte) :
    (strState t object shndx o str).stringpool
      = intern t.stringpool str := rfl

theorem strState_merged (t : Output_merge_string) (object shndx o : Nat)
    (str : List Byte) :
    (strState t object shndx o str).merged_strings
      = t.merged_strings ++ [⟨object, shndx, o, str⟩] := rfl

theorem addStrings_spec (object shndx : Nat) (strs : List (List Byte)) :
    ∀ (o : Nat) (t : Output_merge_string),
      (Output_merge_string.addStrings object shndx strs o t).width
        = t.width ∧
      (∀ x, x ∈ (Output_merge_string.addStrings object shndx strs o
          t).stringpool ↔ x ∈ t.stringpool ∨ x ∈ strs) ∧
      (t.stringpool.Nodup →
        (Output_merge_string.addStrings object shndx strs o
          t).stringpool.Nodup) ∧
      (∃ tail, (Output_merge_string.addStrings object shndx strs o
          t).merged_strings = t.merged_strings ++ tail ∧
        tail.map msKey = (List.range strs.length).map
          (fun j => ⟨object, shndx, o + strOffset strs j⟩) ∧
        ∀ ms ∈ tail, ms.string ∈ strs) ∧
      (∀ j, j < strs.length →
        Merged_string.mk object shndx (o + strOffset strs j)
            (strs.getD j [])
          ∈ (Output_merge_string.addStrings object shndx strs o
              t).merged_strings) := by
  induction strs with
  | nil =>
      intro o t
      refine ⟨rfl, ?_, fun h => h, ⟨[], (List.append_nil _).symm, rfl,
        fun ms hms => absurd hms (List.not_mem_nil ms)⟩, ?_⟩
      · intro x
        show x ∈ t.stringpool ↔ x ∈ t.stringpool ∨ x ∈ ([] : List (List Byte))
        simp
      · intro j hj
        exact absurd hj (Nat.not_lt_zero j)
  | cons str rest ih =>
      intro o t
      rw [addStrings_cons]
      obtain ⟨ihW, ihPool, ihNd, ⟨tail, ihMerged, ihKeys, ihStrs⟩, ihMem⟩ :=
        ih (o + str.length) (strState t object shndx o str)
      rw [strState_width] at ihW
      rw [strState_merged] at ihMerged
      refine ⟨ihW, ?_, ?_, ?_, ?_⟩
      · intro x
        rw [ihPool x, strState_pool, mem_intern]
        constructor
        · rintro ((h | rfl) | h)
          · exact Or.inl h
          · exact Or.inr (List.mem_cons_self x rest)
          · exact Or.inr (List.mem_cons_of_mem str h)
        · rintro (h | h)
          · exact Or.inl (Or.inl h)
          · rcases List.mem_cons.mp h with rfl | h1
            · exact Or.inl (Or.inr rfl)
            · exact Or.inr h1
      · intro hnd
        refine ihNd ?_
        rw [strState_pool]
        exact intern_nodup t.stringpool str hnd
      · refine ⟨⟨object, shndx, o, str⟩ :: tail, ?_, ?_, ?_⟩
        · rw [ihMerged, List.append_assoc, List.singleton_append]
        · rw [List.map_cons, ihKeys, List.length_cons,
            List.range_succ_eq_map, List.map_cons, List.map_map]
          rw [List.cons_eq_cons]
          refine ⟨rfl, ?_⟩
          refine List.map_congr_left ?_
          intro j _
          show Merge_key.mk object shndx
              (o + str.length + strOffset rest j)
            = Merge_key.mk object shndx
              (o + strOffset (str :: rest) (j + 1))
          rw [strOffset_succ]
          congr 1
          omega
        · intro ms hms
          rcases List.mem_cons.mp hms with rfl | h
          · exact List.mem_cons_self str rest
          · exact List.mem_cons_of_mem str (ihStrs ms h)
      · intro j hj
        cases j with
        | zero =>
            rw [ihMerged]
            have hkey : Merged_string.mk object shndx
                (o + strOffset (str :: rest) 0) ((str :: rest).getD 0 [])
                = Merged_string.mk object shndx o str := by
              rw [strOffset_zero]
              rfl
            rw [hkey]
            exact List.mem_append_left _
              (List.mem_append_right _ (List.mem_singleton.mpr rfl))
        | succ j' =>
            have hj' : j' < rest.length := by
              simp only [List.length_cons] at hj
              omega
            have h := ihMem j' hj'
            have hkey : Merged_string.mk object shndx
                (o + strOffset (str :: rest) (j' + 1))
                ((str :: rest).getD (j' + 1) [])
                = Merged_string.mk object shndx
                  (o + str.length + strOffset rest j') (rest.getD j' []) :=
              by
              rw [strOffset_succ, List.getD_cons_succ]
              congr 1
              omega
            rw [hkey]
            exact h

theorem runStringFrom_nil (t : Output_merge_string) :
    runStringFrom t [] = t := rfl

theorem runStringFrom_cons (t : Output_merge_string) (sec : InputSection)
    (rest : List InputSection) :
    runStringFrom t (sec :: rest)
      = runStringFrom
          (t.do_add_input_section sec.object sec.shndx sec.bytes).2 rest :=
  rfl

theorem runStringFrom_spec (secs : List InputSection) :
    ∀ t : Output_merge_string, 0 < t.width →
      (∀ ms ∈ t.merged_strings, keyId (msKey ms) ∉ secs.map secId) →
      (secs.map secId).Nodup →
      (t.merged_strings.map msKey).Nodup →
      t.stringpool.Nodup →
      (∀ x ∈ t.stringpool, x ≠ []) →
      (∀ ms ∈ t.merged_strings, ms.string ∈ t.stringpool) →
      (runStringFrom t secs).width = t.width ∧
      (runStringFrom t secs).stringpool.Nodup ∧
      (∀ x ∈ (runStringFrom t secs).stringpool, x ≠ []) ∧
      (∀ ms ∈ (runStringFrom t secs).merged_strings,
        ms.string ∈ (runStringFrom t secs).stringpool) ∧
      ((runStringFrom t secs).merged_strings.map msKey).Nodup ∧
      (∀ x ∈ t.stringpool, x ∈ (runStringFrom t secs).stringpool) ∧
      (∃ mtail, (runStringFrom t secs).merged_strings
          = t.merged_strings ++ mtail ∧
        ∀ ms ∈ mtail, keyId (msKey ms) ∈ secs.map secId) ∧
      (∀ sec ∈ secs, t.width ∣ sec.bytes.length →
        ∀ j, j < (splitStrings t.width sec.bytes).length →
          Merged_string.mk sec.object sec.shndx
              (strOffset (splitStrings t.width sec.bytes) j)
              ((splitStrings t.width sec.bytes).getD j [])
            ∈ (runStringFrom t secs).merged_strings) := by
  induction secs with
  | nil =>
      intro t _ _ _ hknd hpnd hpne hms
      refine ⟨rfl, hpnd, hpne, hms, hknd, fun x hx => hx,
        ⟨[], (List.append_nil _).symm,
          fun ms hms => absurd hms (List.not_mem_nil ms)⟩, ?_⟩
      intro sec hsec
      cases hsec
  | cons sec rest ih =>
      intro t hW hfresh hids hknd hpnd hpne hms
      have hids' := List.nodup_cons.mp
        (by simpa only [List.map_cons] using hids)
      rw [runStringFrom_cons]
      by_cases hdv : sec.bytes.length % t.width = 0
      · have hstep : (t.do_add_input_section sec.object sec.shndx
            sec.bytes).2
            = Output_merge_string.addStrings sec.object sec.shndx
                (splitStrings t.width sec.bytes) 0 t := by
          unfold Output_merge_string.do_add_input_section
          rw [if_pos hdv]
        rw [hstep]
        have hsne : ∀ s ∈ splitStrings t.width sec.bytes, s ≠ [] :=
          splitStrings_nonempty t.width hW sec.bytes
        obtain ⟨aW, aPool, aNd, ⟨tail0, aMerged, aKeys, aStrs⟩, aMem⟩ :=
          addStrings_spec sec.object sec.shndx
            (splitStrings t.width sec.bytes) 0 t
        have htail0id : ∀ ms ∈ tail0, keyId (msKey ms) = secId sec := by
          intro ms hmem
          have hx : msKey ms ∈ tail0.map msKey := List.mem_map_of_mem _ hmem
          rw [aKeys] at hx
          obtain ⟨j, _, hje⟩ := List.mem_map.mp hx
          rw [← hje]
          rfl
        have hfresh1 : ∀ ms ∈ (Output_merge_string.addStrings sec.object
            sec.shndx (splitStrings t.width sec.bytes) 0 t).merged_strings,
            keyId (msKey ms) ∉ rest.map secId := by
          intro ms hmem
          rw [aMerged] at hmem
          rcases List.mem_append.mp hmem with h | h
          · intro hc
            exact hfresh ms h
              (by simpa only [List.map_cons] using
                List.mem_cons_of_mem (secId sec) hc)
          · rw [htail0id ms h]
            exact hids'.1
        have hknd1 : ((Output_merge_string.addStrings sec.object sec.shndx
            (splitStrings t.width sec.bytes) 0
              t).merged_strings.map msKey).Nodup := by
          rw [aMerged, List.map_append, List.nodup_append]
          refine ⟨hknd, ?_, ?_⟩
          · rw [aKeys]
            refine List.Nodup.map_on ?_ (List.nodup_range _)
            intro j1 hj1 j2 hj2 hjj
            rw [List.mem_range] at hj1 hj2
            have heq := (Merge_key.mk.injEq _ _ _ _ _ _).mp hjj
            have hoff : strOffset (splitStrings t.width sec.bytes) j1
                = strOffset (splitStrings t.width sec.bytes) j2 := by omega
            by_contra hne
            rcases Nat.lt_or_ge j1 j2 with h | h
            · have := strOffset_strict _ hsne j1 j2 h (by omega)
              omega
            · have h2 : j2 < j1 := by omega
              have := strOffset_strict _ hsne j2 j1 h2 (by omega)
              omega
          · intro x hx hx'
            rw [aKeys] at hx'
            obtain ⟨j, _, hje⟩ := List.mem_map.mp hx'
            obtain ⟨ms, hmem, hmx⟩ := List.mem_map.mp hx
            have hni := hfresh ms hmem
            rw [hmx, ← hje] at hni
            refine hni ?_
            show secId sec ∈ _
            simp only [List.map_cons]
            exact List.mem_cons_self _ _
        have hpnd1 := aNd hpnd
        have hpne1 : ∀ x ∈ (Output_merge_string.addStrings sec.object
            sec.shndx (splitStrings t.width sec.bytes) 0 t).stringpool,
            x ≠ [] := by
          intro x hx
          rcases (aPool x).mp hx with h | h
          · exact hpne x h
          · exact hsne x h
        have hms1 : ∀ ms ∈ (Output_merge_string.addStrings sec.object
            sec.shndx (splitStrings t.width sec.bytes) 0 t).merged_strings,
            ms.string ∈ (Output_merge_string.addStrings sec.object
              sec.shndx (splitStrings t.width sec.bytes) 0 t).stringpool :=
          by
          intro ms hmem
          rw [aMerged] at hmem
          rcases List.mem_append.mp hmem with h | h
          · exact (aPool ms.string).mpr (Or.inl (hms ms h))
          · exact (aPool ms.string).mpr (Or.inr (aStrs ms h))
        have hW1 : 0 < (Output_merge_string.addStrings sec.object sec.shndx
            (splitStrings t.width sec.bytes) 0 t).width := by
          rw [aW]
          exact hW
        obtain ⟨bW, bPnd, bPne, bMs, bKnd, bPoolMono, ⟨mtail1, bMerged,
          bIds⟩, bSlots⟩ := ih _ hW1 hfresh1 hids'.2 hknd1 hpnd1 hpne1 hms1
        rw [aW] at bW bSlots
        refine ⟨bW, bPnd, bPne, bMs, bKnd, ?_, ?_, ?_⟩
        · intro x hx
          exact bPoolMono x ((aPool x).mpr (Or.inl hx))
        · refine ⟨tail0 ++ mtail1, ?_, ?_⟩
          · rw [bMerged, aMerged, List.append_assoc]
          · intro ms hmem
            rcases List.mem_append.mp hmem with h | h
            · rw [List.map_cons, htail0id ms h]
              exact List.mem_cons_self _ _
            · rw [List.map_cons]
              exact List.mem_cons_of_mem _ (bIds ms h)
        · intro sec' hsec' hdvd' j hj
          rcases List.mem_cons.mp hsec' with rfl | hmem
          · have h := aMem j hj
            simp only [Nat.zero_add] at h
            rw [bMerged]
            exact List.mem_append_left _ h
          · exact bSlots sec' hmem hdvd' j hj
      · have hstep : (t.do_add_input_section sec.object sec.shndx
            sec.bytes).2 = t := by
          unfold Output_merge_string.do_add_input_section
          rw [if_neg hdv]
        rw [hstep]
        have hfresh' : ∀ ms ∈ t.merged_strings,
            keyId (msKey ms) ∉ rest.map secId := by
          intro ms hmem hc
          exact hfresh ms hmem
            (by simpa only [List.map_cons] using
              List.mem_cons_of_mem (secId sec) hc)
        obtain ⟨bW, bPnd, bPne, bMs, bKnd, bPoolMono, ⟨mtail1, bMerged,
          bIds⟩, bSlots⟩ := ih t hW hfresh' hids'.2 hknd hpnd hpne hms
        refine ⟨bW, bPnd, bPne, bMs, bKnd, bPoolMono,
          ⟨mtail1, bMerged, ?_⟩, ?_⟩
        · intro ms hmem
          rw [List.map_cons]
          exact List.mem_cons_of_mem _ (bIds ms hmem)
        · intro sec' hsec' hdvd' j hj
          rcases List.mem_cons.mp hsec' with rfl | hmem
          · exact absurd (Nat.mod_eq_zero_of_dvd hdvd') hdv
          · exact bSlots sec' hmem hdvd' j hj

theorem lookupString_spec (offs : List (List Byte × Nat)) (x : List Byte)
    (hmem : x ∈ offs.map Prod.fst) :
    ∃ v, lookupString offs x = some v ∧ (x, v) ∈ offs := by
  cases hfind : offs.find? (fun p => decide (p.1 = x)) with
  | none =>
      exfalso
      obtain ⟨p, hp, hpx⟩ := List.mem_map.mp hmem
      have := List.find?_eq_none.mp hfind p hp
      simp only [decide_eq_true_eq] at this
      exact this hpx
  | some p =>
      have hpx := List.find?_some hfind
      simp only [decide_eq_true_eq] at hpx
      have hpm := List.mem_of_find?_eq_some hfind
      refine ⟨p.2, ?_, ?_⟩
      · unfold lookupString
        rw [hfind]
        rfl
      · rw [← hpx]
        exact hpm

theorem record_merged_spec (offs : List (List Byte × Nat)) :
    ∀ (ml : List Merged_string) (m0 : Merge_map),
      (∀ ms ∈ ml, ∃ v, lookupString offs ms.string = some v) →
      (record_merged offs ml m0).map Prod.fst
        = m0.map Prod.fst ++ ml.map msKey ∧
      (∀ p ∈ m0, p ∈ record_merged offs ml m0) ∧
      (∀ ms ∈ ml, ∀ v, lookupString offs ms.string = some v →
        (msKey ms, v) ∈ record_merged offs ml m0) := by
  intro ml
  induction ml with
  | nil =>
      intro m0 _
      refine ⟨(List.append_nil _).symm, fun p hp => hp, ?_⟩
      intro ms hms
      cases hms
  | cons ms ml ih =>
      intro m0 hall
      obtain ⟨v0, hv0⟩ := hall ms (List.mem_cons_self ms ml)
      have hstep : record_merged offs (ms :: ml) m0
          = record_merged offs ml
              (add_mapping m0 ms.object ms.shndx ms.offset v0) := by
        show record_merged offs ml
            (match lookupString offs ms.string with
              | some v => add_mapping m0 ms.object ms.shndx ms.offset v
              | none => m0) = _
        rw [hv0]
      obtain ⟨ihK, ihP, ihM⟩ :=
        ih (add_mapping m0 ms.object ms.shndx ms.offset v0)
          (fun x hx => hall x (List.mem_cons_of_mem ms hx))
      rw [hstep]
      refine ⟨?_, ?_, ?_⟩
      · rw [ihK]
        unfold add_mapping
        rw [List.map_append, List.append_assoc]
        rfl
      · intro p hp
        exact ihP p (List.mem_append_left _ hp)
      · intro ms' hms' v hv
        rcases List.mem_cons.mp hms' with rfl | h
        · have hveq : v = v0 := by
            rw [hv0] at hv
            exact ((Option.some.injEq _ _).mp hv).symm
          subst hveq
          refine ihP (msKey ms', v) ?_
          exact List.mem_append_right _ (List.mem_singleton.mpr rfl)
        · exact ihM ms' h v hv

theorem runStringFrom_pool (secs : List InputSection) :
    ∀ t : Output_merge_string, 0 < t.width → t.stringpool.Nodup →
      (∀ x ∈ t.stringpool, x ≠ []) →
      (runStringFrom t secs).width = t.width ∧
      (runStringFrom t secs).stringpool.Nodup ∧
      (∀ x ∈ (runStringFrom t secs).stringpool, x ≠ []) := by
  induction secs with
  | nil =>
      intro t _ hnd hne
      exact ⟨rfl, hnd, hne⟩
  | cons sec rest ih =>
      intro t hW hnd hne
      rw [runStringFrom_cons]
      by_cases hdv : sec.bytes.length % t.width = 0
      · have hstep : (t.do_add_input_section sec.object sec.shndx
            sec.bytes).2
            = Output_merge_string.addStrings sec.object sec.shndx
                (splitStrings t.width sec.bytes) 0 t := by
          unfold Output_merge_string.do_add_input_section
          rw [if_pos hdv]
        rw [hstep]
        obtain ⟨aW, aPool, aNd, -, -⟩ :=
          addStrings_spec sec.object sec.shndx
            (splitStrings t.width sec.bytes) 0 t
        have hW1 : 0 < (Output_merge_string.addStrings sec.object sec.shndx
            (splitStrings t.width sec.bytes) 0 t).width := by
          rw [aW]
          exact hW
        have hne1 : ∀ x ∈ (Output_merge_string.addStrings sec.object
            sec.shndx (splitStrings t.width sec.bytes) 0 t).stringpool,
            x ≠ [] := by
          intro x hx
          rcases (aPool x).mp hx with h | h
          · exact hne x h
          · exact splitStrings_nonempty t.width hW sec.bytes x h
        obtain ⟨bW, bNd, bNe⟩ := ih _ hW1 (aNd hnd) hne1
        rw [aW] at bW
        exact ⟨bW, bNd, bNe⟩
      · have hstep : (t.do_add_input_section sec.object sec.shndx
            sec.bytes).2 = t := by
          unfold Output_merge_string.do_add_input_section
          rw [if_neg hdv]
        rw [hstep]
        exact ih t hW hnd hne

/-! ## Claim theorems -/

/-- C1: dedup idempotence for constants: two slots with equal byte content,
added anywhere in the run (each input section presented once), translate —
with the same section base address — to the same output address, and the
translation succeeds. -/
theorem C1_dedup_idempotent (e : Nat) (secs : List InputSection)
    (he : 0 < e) (hids : (secs.map secId).Nodup)
    (secA secB : InputSection) (hA : secA ∈ secs) (hB : secB ∈ secs)
    (hdA : e ∣ secA.bytes.length) (hdB : e ∣ secB.bytes.length)
    (jA jB : Nat) (hjA : jA * e + e ≤ secA.bytes.length)
    (hjB : jB * e + e ≤ secB.bytes.length)
    (heq : readAt secA.bytes (jA * e) e = readAt secB.bytes (jB * e) e)
    (base : Nat) :
    do_output_address (runData e secs).merge_map secA.object secA.shndx
        (jA * e) base
      = do_output_address (runData e secs).merge_map secB.object secB.shndx
          (jB * e) base ∧
    (do_output_address (runData e secs).merge_map secA.object secA.shndx
        (jA * e) base).isSome := by
  obtain ⟨fInv, fE, -, -, -, fKnd, fSlots⟩ :=
    runDataFrom_spec secs (Output_merge_data.init e) (DInv_init e he)
      (by intro p hp; cases hp) hids List.nodup_nil
  obtain ⟨vA, hmemA, hAa, hAr, hAc⟩ := fSlots secA hA hdA jA hjA
  obtain ⟨vB, hmemB, hBa, hBr, hBc⟩ := fSlots secB hB hdB jB hjB
  have hDvd : e ∣ (runDataFrom (Output_merge_data.init e) secs).data.length
      := by
    have h1 := fInv.2.1
    rw [fE] at h1
    exact h1
  have hNd : (chunksOf e
      (runDataFrom (Output_merge_data.init e) secs).data).Nodup := by
    have h1 := fInv.2.2.2
    rw [fE] at h1
    exact h1
  have hv : vA = vB := by
    refine aligned_readAt_inj e he _ hDvd hNd vA vB hAa hAr hBa hBr ?_
    exact hAc.trans (heq.trans hBc.symm)
  have hlA : lookupKey (runData e secs).merge_map
      ⟨secA.object, secA.shndx, jA * e⟩ = some vA :=
    lookupKey_eq_some_of_mem fKnd hmemA
  have hlB : lookupKey (runData e secs).merge_map
      ⟨secB.object, secB.shndx, jB * e⟩ = some vB :=
    lookupKey_eq_some_of_mem fKnd hmemB
  unfold do_output_address
  rw [hlA, hlB, hv]
  exact ⟨rfl, rfl⟩

/-- Witness for C1 on the spec's scenario: the same 4 bytes in two objects
translate to the same output address. -/
theorem C1_dedup_idempotent_witness :
    do_output_address
        (runData 4 [⟨1, 7, [1, 2, 3, 4]⟩,
          ⟨2, 7, [9, 9, 9, 9, 1, 2, 3, 4]⟩]).merge_map 1 7 (0 * 4) 100
      = do_output_address
          (runData 4 [⟨1, 7, [1, 2, 3, 4]⟩,
            ⟨2, 7, [9, 9, 9, 9, 1, 2, 3, 4]⟩]).merge_map 2 7 (1 * 4) 100 ∧
    (do_output_address
        (runData 4 [⟨1, 7, [1, 2, 3, 4]⟩,
          ⟨2, 7, [9, 9, 9, 9, 1, 2, 3, 4]⟩]).merge_map 1 7
        (0 * 4) 100).isSome :=
  C1_dedup_idempotent 4
    [⟨1, 7, [1, 2, 3, 4]⟩, ⟨2, 7, [9, 9, 9, 9, 1, 2, 3, 4]⟩]
    (by decide) (by decide) ⟨1, 7, [1, 2, 3, 4]⟩
    ⟨2, 7, [9, 9, 9, 9, 1, 2, 3, 4]⟩ (by decide) (by decide)
    (by decide) (by decide) 0 1 (by decide) (by decide) (by decide) 100

/-- C7: the finalized size of a constant merger is at most the sum of the
input constant-section sizes, with equality exactly when no two slots across
all inputs had equal content. -/
theorem C7_size_bound (e : Nat) (secs : List InputSection) (he : 0 < e)
    (hall : ∀ sec ∈ secs, e ∣ sec.bytes.length) :
    (runData e secs).do_set_address ≤ totalInputSize secs ∧
    ((runData e secs).do_set_address = totalInputSize secs ↔
      (goodSlots e secs).Nodup) := by
  obtain ⟨fInv, fE, fChunks⟩ :=
    runDataFrom_data secs (Output_merge_data.init e) (DInv_init e he)
  have hlens : ∀ c ∈ dedupFirst (goodSlots e secs), c.length = e := by
    intro c hc
    have : c ∈ ([] : List (List Byte)) ∨ c ∈ goodSlots e secs :=
      (mem_dedupFoldl c (goodSlots e secs) []).mp hc
    rcases this with h | h
    · cases h
    · exact goodSlots_length e he secs c h
  have hsize : (runData e secs).data.length
      = (dedupFirst (goodSlots e secs)).length * e := by
    have h1 : (chunksOf e (runData e secs).data).flatten
        = (runData e secs).data := flatten_chunksOf e he _
    have h2 : chunksOf e (runData e secs).data
        = dedupFirst (goodSlots e secs) := fChunks
    rw [← h1, h2]
    exact flatten_length_uniform e _ hlens
  have htot : totalInputSize secs = (goodSlots e secs).length * e :=
    totalInputSize_goodSlots e he secs hall
  have hle : (dedupFirst (goodSlots e secs)).length
      ≤ (goodSlots e secs).length := by
    have := dedupFoldl_length_le (goodSlots e secs) []
    simpa using this
  have hiff : (dedupFirst (goodSlots e secs)).length
      = (goodSlots e secs).length ↔ (goodSlots e secs).Nodup := by
    have := dedupFoldl_length_eq_iff (goodSlots e secs) []
    simp only [List.length_nil, Nat.zero_add, List.not_mem_nil,
      not_false_iff, implies_true, and_true] at this
    exact this
  unfold Output_merge_data.do_set_address
  rw [hsize, htot]
  constructor
  · exact Nat.mul_le_mul_right e hle
  · constructor
    · intro h
      exact hiff.mp (Nat.eq_of_mul_eq_mul_right he h)
    · intro h
      rw [hiff.mpr h]

/-- Witness for C7 on a run with one duplicated slot: the final size is
strictly below the input total, matching the failing `Nodup`. -/
theorem C7_size_bound_witness :
    (runData 2 [⟨1, 0, [5, 6, 5, 6]⟩]).do_set_address
        ≤ totalInputSize [⟨1, 0, [5, 6, 5, 6]⟩] ∧
    ((runData 2 [⟨1, 0, [5, 6, 5, 6]⟩]).do_set_address
        = totalInputSize [⟨1, 0, [5, 6, 5, 6]⟩] ↔
      (goodSlots 2 [⟨1, 0, [5, 6, 5, 6]⟩]).Nodup) :=
  C7_size_bound 2 [⟨1, 0, [5, 6, 5, 6]⟩] (by decide) (by decide)

/-- C8: after every sequence of operations, the accumulated buffer's length
is a multiple of `entsize`, its entries are pairwise distinct, and it is
exactly the first-seen-order deduplication of all accepted slots (the states
after finalize and emit coincide with the collection state, `do_write`
emitting the buffer verbatim). -/
theorem C8_buffer_invariant (e : Nat) (secs : List InputSection)
    (he : 0 < e) :
    e ∣ (runData e secs).data.length ∧
    (chunksOf e (runData e secs).data).Nodup ∧
    chunksOf e (runData e secs).data = dedupFirst (goodSlots e secs) ∧
    (runData e secs).do_write = (runData e secs).data := by
  obtain ⟨fInv, fE, fChunks⟩ :=
    runDataFrom_data secs (Output_merge_data.init e) (DInv_init e he)
  have fC : chunksOf e (runData e secs).data
      = dedupFirst (goodSlots e secs) := fChunks
  have h1 := fInv.2.1
  have h2 := fInv.2.2.2
  rw [fE] at h1 h2
  exact ⟨h1, h2, fC, rfl⟩

/-- Witness for C8 on a run with one duplicated slot. -/
theorem C8_buffer_invariant_witness :
    2 ∣ (runData 2 [⟨1, 0, [5, 6, 5, 6]⟩]).data.length ∧
    (chunksOf 2 (runData 2 [⟨1, 0, [5, 6, 5, 6]⟩]).data).Nodup ∧
    chunksOf 2 (runData 2 [⟨1, 0, [5, 6, 5, 6]⟩]).data
      = dedupFirst (goodSlots 2 [⟨1, 0, [5, 6, 5, 6]⟩]) ∧
    (runData 2 [⟨1, 0, [5, 6, 5, 6]⟩]).do_write
      = (runData 2 [⟨1, 0, [5, 6, 5, 6]⟩]).data :=
  C8_buffer_invariant 2 [⟨1, 0, [5, 6, 5, 6]⟩] (by decide)

/-- C10: every key in the constant merger's content-addressed hash table is
an entry-aligned offset strictly below the accumulated length, so the bounds
assertion of `constant(k)` holds and dereferencing `entsize` bytes at `p_ +
k` stays inside the accumulated buffer. -/
theorem C10_hashtable_keys_bounded (e : Nat) (secs : List InputSection)
    (he : 0 < e) :
    ∀ k ∈ (runData e secs).hashtable,
      k < (runData e secs).data.length ∧
      k + e ≤ (runData e secs).data.length ∧ e ∣ k := by
  obtain ⟨fInv, fE, -⟩ :=
    runDataFrom_data secs (Output_merge_data.init e) (DInv_init e he)
  intro k hk
  have hchar := fInv.2.2.1 k
  rw [fE] at hchar
  obtain ⟨hka, hkr⟩ := hchar.mp hk
  have hka' : e ∣ k := hka
  have hkr' : k + e ≤ (runData e secs).data.length := hkr
  exact ⟨by omega, hkr', hka'⟩

/-- Witness for C10: the single hash-table key of a one-section run is in
bounds. -/
theorem C10_hashtable_keys_bounded_witness :
    0 < (runData 2 [⟨1, 0, [5, 6, 5, 6]⟩]).data.length ∧
    0 + 2 ≤ (runData 2 [⟨1, 0, [5, 6, 5, 6]⟩]).data.length ∧ 2 ∣ 0 :=
  C10_hashtable_keys_bounded 2 [⟨1, 0, [5, 6, 5, 6]⟩] (by decide) 0
    (by decide)

/-- C2: for every (object, shndx, input_offset) triple, translate returns
`section_base_address + stored_output_offset` exactly when the mapping was
recorded for that triple (the merge map being the list of `record` calls,
each triple recorded at most once), and fails with a lookup failure — never
a silently defaulted address — exactly when no mapping was recorded. -/
theorem C2_translate_semantics (m : Merge_map)
    (hm : (m.map Prod.fst).Nodup) (object shndx offset base : Nat) :
    (∀ v, (⟨object, shndx, offset⟩, v) ∈ m →
      do_output_address m object shndx offset base = some (base + v)) ∧
    (do_output_address m object shndx offset base = none ↔
      ∀ v, (⟨object, shndx, offset⟩, v) ∉ m) := by
  constructor
  · intro v hv
    unfold do_output_address
    rw [lookupKey_eq_some_of_mem hm hv]
    rfl
  · unfold do_output_address
    rw [Option.map_eq_none']
    exact lookupKey_eq_none

/-- Witness for C2 at a concrete map: a recorded triple translates to the
base address plus its stored offset, an unrecorded one fails. -/
theorem C2_translate_semantics_witness :
    do_output_address [(⟨1, 2, 3⟩, 5)] 1 2 3 100 = some 105 ∧
    do_output_address [(⟨1, 2, 3⟩, 5)] 1 2 4 100 = none := by
  have h := C2_translate_semantics [(⟨1, 2, 3⟩, 5)] (by decide) 1 2 3 100
  have h' := C2_translate_semantics [(⟨1, 2, 3⟩, 5)] (by decide) 1 2 4 100
  refine ⟨h.1 5 (by decide), h'.2.mpr ?_⟩
  intro v hv
  simp [Merge_key.mk.injEq] at hv

/-- C5: running the full collect → finalize → emit pipeline twice on the
same inputs in the same order produces byte-identical outputs, for both the
constant and the string merger. -/
theorem C5_determinism (entsize width : Nat)
    (secsD secsS : List InputSection) (d₁ d₂ s₁ s₂ : List Byte)
    (hd₁ : d₁ = dataPipeline entsize secsD)
    (hd₂ : d₂ = dataPipeline entsize secsD)
    (hs₁ : s₁ = stringPipeline width secsS)
    (hs₂ : s₂ = stringPipeline width secsS) :
    d₁ = d₂ ∧ s₁ = s₂ :=
  ⟨hd₁.trans hd₂.symm, hs₁.trans hs₂.symm⟩

/-- Witness for C5 on a concrete two-section input. -/
theorem C5_determinism_witness :
    dataPipeline 2 [⟨1, 0, [7, 7]⟩, ⟨2, 0, [7, 7]⟩] =
        dataPipeline 2 [⟨1, 0, [7, 7]⟩, ⟨2, 0, [7, 7]⟩] ∧
    stringPipeline 1 [⟨1, 0, [97, 0]⟩, ⟨2, 0, [97, 0]⟩] =
        stringPipeline 1 [⟨1, 0, [97, 0]⟩, ⟨2, 0, [97, 0]⟩] :=
  C5_determinism 2 1 [⟨1, 0, [7, 7]⟩, ⟨2, 0, [7, 7]⟩]
    [⟨1, 0, [97, 0]⟩, ⟨2, 0, [97, 0]⟩] _ _ _ _ rfl rfl rfl rfl

/-- C6: a section whose byte length is not an exact multiple of the
merger's entry size (constants) resp. code-unit width (strings) is rejected
by `do_add_input_section` with a `false` return and the merger's state —
buffer, pool, hash table, recorded strings and offset map alike — is left
exactly as it was. -/
theorem C6_malformed_section_atomic (s : Output_merge_data)
    (t : Output_merge_string) (object shndx : Nat) (bytes : List Byte)
    (hd : ¬ s.entsize ∣ bytes.length) (hw : ¬ t.width ∣ bytes.length) :
    s.do_add_input_section object shndx bytes = (false, s) ∧
    t.do_add_input_section object shndx bytes = (false, t) := by
  have hd' : ¬ bytes.length % s.entsize = 0 :=
    fun h => hd (Nat.dvd_of_mod_eq_zero h)
  have hw' : ¬ bytes.length % t.width = 0 :=
    fun h => hw (Nat.dvd_of_mod_eq_zero h)
  constructor
  · unfold Output_merge_data.do_add_input_section
    rw [if_neg hd']
  · unfold Output_merge_string.do_add_input_section
    rw [if_neg hw']

/-- Witness for C6: a 3-byte section offered to an entsize-4 constant merger
and to a width-2 string merger is rejected with the state unchanged. -/
theorem C6_malformed_section_atomic_witness :
    (Output_merge_data.init 4).do_add_input_section 1 0 [1, 2, 3] =
      (false, Output_merge_data.init 4) ∧
    Output_merge_string.do_add_input_section ⟨2, [], []⟩ 1 0 [1, 2, 3] =
      (false, ⟨2, [], []⟩) :=
  C6_malformed_section_atomic (Output_merge_data.init 4) ⟨2, [], []⟩ 1 0
    [1, 2, 3] (by decide) (by decide)

/-- C3: round-trip: every successfully added constant slot and string
translates, after finalize, to an output offset at which the emitted buffer
holds exactly the original input bytes (the `entsize` bytes of the slot,
resp. the full string including its terminator). -/
theorem C3_round_trip :
    (∀ (e : Nat) (secs : List InputSection), 0 < e →
      (secs.map secId).Nodup →
      ∀ sec ∈ secs, e ∣ sec.bytes.length →
      ∀ j, j * e + e ≤ sec.bytes.length → ∀ base,
      ∃ v, do_output_address (runData e secs).merge_map sec.object
          sec.shndx (j * e) base = some (base + v) ∧
        readAt ((runData e secs).do_write) v e
          = readAt sec.bytes (j * e) e) ∧
    (∀ (W : Nat) (secs : List InputSection), 0 < W →
      (secs.map secId).Nodup →
      ∀ sec ∈ secs, W ∣ sec.bytes.length →
      ∀ j, j < (splitStrings W sec.bytes).length → ∀ base,
      ∃ v, do_output_address ((runString W secs).finalize).2 sec.object
          sec.shndx (strOffset (splitStrings W sec.bytes) j) base
          = some (base + v) ∧
        readAt ((runString W secs).do_write) v
            ((splitStrings W sec.bytes).getD j []).length
          = (splitStrings W sec.bytes).getD j []) := by
  constructor
  · intro e secs he hids sec hsec hdvd j hj base
    obtain ⟨-, -, -, -, -, fKnd, fSlots⟩ :=
      runDataFrom_spec secs (Output_merge_data.init e) (DInv_init e he)
        (by intro p hp; cases hp) hids List.nodup_nil
    obtain ⟨v, hmem, -, -, hread⟩ := fSlots sec hsec hdvd j hj
    have hlk : lookupKey (runData e secs).merge_map
        ⟨sec.object, sec.shndx, j * e⟩ = some v :=
      lookupKey_eq_some_of_mem fKnd hmem
    have hread' : readAt ((runData e secs).do_write) v e
        = readAt sec.bytes (j * e) e := hread
    refine ⟨v, ?_, hread'⟩
    unfold do_output_address
    rw [hlk]
    rfl
  · intro W secs hW hids sec hsec hdvd j hj base
    obtain ⟨-, bPnd, -, bMs, bKnd, -, -, bSlots⟩ :=
      runStringFrom_spec secs ⟨W, [], []⟩ hW
        (by intro ms hms; cases hms) hids List.nodup_nil List.nodup_nil
        (fun x hx => absurd hx (List.not_mem_nil x))
        (by intro ms hms; cases hms)
    have hmsmem := bSlots sec hsec hdvd j hj
    obtain ⟨⟨offs2, hoffs, hkeys⟩, -⟩ :=
      sso_mono (sortStrings (runString W secs).stringpool) [] [] [] 0
    have hoffs' : (finalizePool (runString W secs).stringpool).2
        = offs2 := by
      show (set_string_offsets _ [] [] [] 0).2 = offs2
      rw [hoffs, List.nil_append]
    have hresolve : ∀ ms ∈ (runString W secs).merged_strings,
        ∃ v, lookupString
          (finalizePool (runString W secs).stringpool).2 ms.string
            = some v ∧
          (ms.string, v)
            ∈ (finalizePool (runString W secs).stringpool).2 := by
      intro ms hms
      have hp : ms.string ∈ (runString W secs).stringpool := bMs ms hms
      have hk : ms.string ∈ ((finalizePool
          (runString W secs).stringpool).2.map Prod.fst) := by
        rw [hoffs', hkeys]
        exact (sortStrings_mem _ ms.string).mpr hp
      exact lookupString_spec _ ms.string hk
    obtain ⟨mK, mP, mM⟩ := record_merged_spec
      (finalizePool (runString W secs).stringpool).2
      (runString W secs).merged_strings []
      (fun ms hms => Exists.elim (hresolve ms hms)
        (fun v hv => ⟨v, hv.1⟩))
    have hmapknd : (((runString W secs).finalize).2.map Prod.fst).Nodup :=
      by
      show ((record_merged (finalizePool (runString W secs).stringpool).2
        (runString W secs).merged_strings []).map Prod.fst).Nodup
      rw [mK]
      simpa using bKnd
    obtain ⟨v, hv, hventry⟩ := hresolve _ hmsmem
    have hmem2 := mM _ hmsmem v hv
    have hlk : lookupKey ((runString W secs).finalize).2
        ⟨sec.object, sec.shndx, strOffset (splitStrings W sec.bytes) j⟩
        = some v := lookupKey_eq_some_of_mem hmapknd hmem2
    have hcorrect := sso_correct
      (sortStrings (runString W secs).stringpool) [] [] [] 0
      (Nat.le_refl 0) rfl (fun p hp => absurd hp (List.not_mem_nil p))
    refine ⟨v, ?_, ?_⟩
    · unfold do_output_address
      rw [hlk]
      rfl
    · exact (hcorrect (((splitStrings W sec.bytes).getD j []), v)
        hventry).2

/-- Witness for C3: a deduplicated constant slot and the "at\0" string both
read back their original bytes at their translated addresses. -/
theorem C3_round_trip_witness :
    (∃ v, do_output_address
        (runData 4 [⟨1, 7, [1, 2, 3, 4]⟩,
          ⟨2, 7, [9, 9, 9, 9, 1, 2, 3, 4]⟩]).merge_map 2 7 (1 * 4) 100
        = some (100 + v) ∧
      readAt ((runData 4 [⟨1, 7, [1, 2, 3, 4]⟩,
          ⟨2, 7, [9, 9, 9, 9, 1, 2, 3, 4]⟩]).do_write) v 4
        = readAt [9, 9, 9, 9, 1, 2, 3, 4] (1 * 4) 4) ∧
    (∃ v, do_output_address
        ((runString 1 [⟨1, 7, [99, 97, 116, 0]⟩,
          ⟨2, 7, [97, 116, 0]⟩]).finalize).2 2 7
          (strOffset (splitStrings 1 [97, 116, 0]) 0) 100
        = some (100 + v) ∧
      readAt ((runString 1 [⟨1, 7, [99, 97, 116, 0]⟩,
          ⟨2, 7, [97, 116, 0]⟩]).do_write) v
          ((splitStrings 1 [97, 116, 0]).getD 0 []).length
        = (splitStrings 1 [97, 116, 0]).getD 0 []) :=
  ⟨C3_round_trip.1 4
      [⟨1, 7, [1, 2, 3, 4]⟩, ⟨2, 7, [9, 9, 9, 9, 1, 2, 3, 4]⟩]
      (by decide) (by decide) ⟨2, 7, [9, 9, 9, 9, 1, 2, 3, 4]⟩ (by decide)
      (by decide) 1 (by decide) 100,
   C3_round_trip.2 1 [⟨1, 7, [99, 97, 116, 0]⟩, ⟨2, 7, [97, 116, 0]⟩]
      (by decide) (by decide) ⟨2, 7, [97, 116, 0]⟩ (by decide) (by decide)
      0 (by decide) 100⟩

/-- Counterexample to C4 as stated: with strings "ad\0", "bd\0" and "d\0"
all added, "d\0" is a proper suffix of both stored strings, but its assigned
offset (4, inside "ad\0"'s storage) differs from "bd\0"'s offset plus the
position where the suffix begins inside "bd\0" (0 + 1), so the claimed
offset equation fails for the pair (S1 = "bd\0", S2 = "d\0"). -/
theorem C4_suffix_sharing_counterexample :
    [100, 0] ∈ (runString 1 [⟨1, 5,
        [97, 100, 0, 98, 100, 0, 100, 0]⟩]).stringpool ∧
    [98, 100, 0] ∈ (runString 1 [⟨1, 5,
        [97, 100, 0, 98, 100, 0, 100, 0]⟩]).stringpool ∧
    [100, 0] <:+ [98, 100, 0] ∧ [100, 0] ≠ ([98, 100, 0] : List Byte) ∧
    lookupString (finalizePool (runString 1 [⟨1, 5,
        [97, 100, 0, 98, 100, 0, 100, 0]⟩]).stringpool).2 [98, 100, 0]
      = some 0 ∧
    lookupString (finalizePool (runString 1 [⟨1, 5,
        [97, 100, 0, 98, 100, 0, 100, 0]⟩]).stringpool).2 [100, 0]
      = some 4 ∧
    (4 : Nat) ≠ 0 + ([98, 100, 0].length - [100, 0].length) := by
  decide

/-- C4 (amended): for every pair of added strings with S2 a proper suffix of
S1, the finalized pool gives S1 fresh storage at most once and reads S1 back
intact at its offset, never stores S2 separately, and resolves S2 inside the
storage of some stored string that has S2 as a suffix, at the offset where
the matching suffix begins — S1 itself when S1 is the only such carrier
(the original claim's equation with S1's own offset fails when S2 is a
suffix of several stored strings, as the counterexample shows). -/
theorem C4_suffix_sharing_amended (W : Nat) (secs : List InputSection)
    (hW : 0 < W) (S1 S2 : List Byte)
    (h1 : S1 ∈ (runString W secs).stringpool)
    (h2 : S2 ∈ (runString W secs).stringpool)
    (hsuf : S2 <:+ S1) (hne : S2 ≠ S1) :
    S2 ∉ (finalizePool (runString W secs).stringpool).1 ∧
    (∃ v1, (S1, v1) ∈ (finalizePool (runString W secs).stringpool).2 ∧
      readAt (finalizePool (runString W secs).stringpool).1.flatten v1
        S1.length = S1) ∧
    ∃ t vt v, t ∈ (finalizePool (runString W secs).stringpool).1 ∧
      S2 <:+ t ∧ S2 ≠ t ∧
      (t, vt) ∈ (finalizePool (runString W secs).stringpool).2 ∧
      (S2, v) ∈ (finalizePool (runString W secs).stringpool).2 ∧
      v = vt + (t.length - S2.length) ∧
      readAt (finalizePool (runString W secs).stringpool).1.flatten v
        S2.length = S2 := by
  obtain ⟨-, hpnd, hpne⟩ := runStringFrom_pool secs ⟨W, [], []⟩ hW
    List.nodup_nil (fun x hx => absurd hx (List.not_mem_nil x))
  have hsortnd : (sortStrings (runString W secs).stringpool).Nodup :=
    sortStrings_nodup _ hpnd
  have hsorted := sortStrings_sorted (runString W secs).stringpool
  have hsne : ∀ y ∈ sortStrings (runString W secs).stringpool, y ≠ [] :=
    fun y hy => hpne y ((sortStrings_mem _ y).mp hy)
  have h1s : S1 ∈ sortStrings (runString W secs).stringpool :=
    (sortStrings_mem _ S1).mpr h1
  have h2s : S2 ∈ sortStrings (runString W secs).stringpool :=
    (sortStrings_mem _ S2).mpr h2
  have hreach := sso_reach (sortStrings (runString W secs).stringpool)
    [] [] [] [] 0 S1 S2 hsorted hsortnd hsne
    (fun h => absurd rfl h) (fun h => absurd rfl h) (fun _ => rfl)
    (fun y hy => absurd hy (List.not_mem_nil y))
    (Or.inr h1s) h2s hsuf hne
  have hcorrect := sso_correct (sortStrings (runString W secs).stringpool)
    [] [] [] 0 (Nat.le_refl 0) rfl
    (fun p hp => absurd hp (List.not_mem_nil p))
  obtain ⟨⟨offs2, hoffs, hkeys⟩, -⟩ :=
    sso_mono (sortStrings (runString W secs).stringpool) [] [] [] 0
  obtain ⟨hnotst, t, vt, v, htst, htsuf, htne, htoffs, hsoffs, hveq⟩ :=
    hreach
  refine ⟨hnotst, ?_, t, vt, v, htst, htsuf, htne, htoffs, hsoffs, hveq,
    (hcorrect (S2, v) hsoffs).2⟩
  have h1k : S1 ∈ ((finalizePool
      (runString W secs).stringpool).2.map Prod.fst) := by
    show S1 ∈ ((set_string_offsets _ [] [] [] 0).2.map Prod.fst)
    rw [hoffs]
    simp only [List.nil_append]
    rw [hkeys]
    exact h1s
  obtain ⟨p, hpmem, hpfst⟩ := List.mem_map.mp h1k
  refine ⟨p.2, ?_, ?_⟩
  · rw [← hpfst]
    exact hpmem
  · have := (hcorrect p hpmem).2
    rw [hpfst] at this
    exact this

/-- Witness for the amended C4 on the spec's scenario: "world\0" resolves
inside the stored "hello world\0". -/
theorem C4_suffix_sharing_amended_witness :
    [119, 111, 114, 108, 100, 0]
        ∉ (finalizePool (runString 1
            [⟨1, 5, [119, 111, 114, 108, 100, 0]⟩,
             ⟨2, 5, [104, 101, 108, 108, 111, 32,
               119, 111, 114, 108, 100, 0]⟩]).stringpool).1 ∧
    (∃ v1, ([104, 101, 108, 108, 111, 32, 119, 111, 114, 108, 100, 0], v1)
        ∈ (finalizePool (runString 1
            [⟨1, 5, [119, 111, 114, 108, 100, 0]⟩,
             ⟨2, 5, [104, 101, 108, 108, 111, 32,
               119, 111, 114, 108, 100, 0]⟩]).stringpool).2 ∧
      readAt (finalizePool (runString 1
            [⟨1, 5, [119, 111, 114, 108, 100, 0]⟩,
             ⟨2, 5, [104, 101, 108, 108, 111, 32,
               119, 111, 114, 108, 100, 0]⟩]).stringpool).1.flatten v1
        [104, 101, 108, 108, 111, 32, 119, 111, 114, 108, 100, 0].length
        = [104, 101, 108, 108, 111, 32, 119, 111, 114, 108, 100, 0]) ∧
    ∃ t vt v, t ∈ (finalizePool (runString 1
            [⟨1, 5, [119, 111, 114, 108, 100, 0]⟩,
             ⟨2, 5, [104, 101, 108, 108, 111, 32,
               119, 111, 114, 108, 100, 0]⟩]).stringpool).1 ∧
      [119, 111, 114, 108, 100, 0] <:+ t ∧
      [119, 111, 114, 108, 100, 0] ≠ t ∧
      (t, vt) ∈ (finalizePool (runString 1
            [⟨1, 5, [119, 111, 114, 108, 100, 0]⟩,
             ⟨2, 5, [104, 101, 108, 108, 111, 32,
               119, 111, 114, 108, 100, 0]⟩]).stringpool).2 ∧
      ([119, 111, 114, 108, 100, 0], v) ∈ (finalizePool (runString 1
            [⟨1, 5, [119, 111, 114, 108, 100, 0]⟩,
             ⟨2, 5, [104, 101, 108, 108, 111, 32,
               119, 111, 114, 108, 100, 0]⟩]).stringpool).2 ∧
      v = vt + (t.length - [119, 111, 114, 108, 100, 0].length) ∧
      readAt (finalizePool (runString 1
            [⟨1, 5, [119, 111, 114, 108, 100, 0]⟩,
             ⟨2, 5, [104, 101, 108, 108, 111, 32,
               119, 111, 114, 108, 100, 0]⟩]).stringpool).1.flatten v
        [119, 111, 114, 108, 100, 0].length
        = [119, 111, 114, 108, 100, 0] :=
  C4_suffix_sharing_amended 1
    [⟨1, 5, [119, 111, 114, 108, 100, 0]⟩,
     ⟨2, 5, [104, 101, 108, 108, 111, 32,
       119, 111, 114, 108, 100, 0]⟩] (by decide)
    [104, 101, 108, 108, 111, 32, 119, 111, 114, 108, 100, 0]
    [119, 111, 114, 108, 100, 0] (by decide) (by decide) (by decide)
    (by decide)

/-- C9: for each code-unit width W ∈ {1, 2, 4}, the `Output_merge_string`
constructor's `gold_assert(addralign <= sizeof(Char_type))` succeeds exactly
under the precondition `addralign ≤ W`: with the precondition the assertion
never fails, and a wider alignment is detected as a contract violation. -/
theorem C9_alignment_precondition (W addralign : Nat)
    (_hW : W = 1 ∨ W = 2 ∨ W = 4) :
    (addralign ≤ W → (Output_merge_string.construct W addralign).isSome) ∧
    (W < addralign → Output_merge_string.construct W addralign = none) := by
  constructor
  · intro h
    unfold Output_merge_string.construct
    rw [if_pos h]
    rfl
  · intro h
    unfold Output_merge_string.construct
    rw [if_neg (Nat.not_le_of_lt h)]

/-- Witness for C9 at width 2: alignment 2 is accepted, alignment 4 trips
the assertion. -/
theorem C9_alignment_precondition_witness :
    (Output_merge_string.construct 2 2).isSome ∧
    Output_merge_string.construct 2 4 = none :=
  ⟨(C9_alignment_precondition 2 2 (Or.inr (Or.inl rfl))).1 (by decide),
   (C9_alignment_precondition 2 4 (Or.inr (Or.inl rfl))).2 (by decide)⟩

end gold
